import Mathlib

/-!
# PhantomArbiter — verification of the arbitrage-detection and consensus core

Shallow embedding of the Rust core of this repository:

* `src_rust/src/graph.rs`          — `PoolEdge`, `HopGraph`
* `src_rust/src/cycle_finder.rs`   — `CycleFinder`, `HopCycle`
* `src_rust/src/multiverse.rs`     — `MultiverseScanner`, `MultiverseCycle`
* `src_rust/src/slot_consensus.rs` — `SignatureDedup`, `SlotTracker`, `ConsensusEngine`
* `src_rust/src/whiff_buffer.rs`   — `WhiffBuffer`, `PressureState`

Numeric conventions of the embedding:

* `f64` values are idealised as real numbers `ℝ`; the special value
  `f64::INFINITY` used for edge weights is modelled by working in `EReal`
  (only `⊤` ever occurs; `⊥` is unreachable because every weight is either a
  finite real or `+∞`).
* `u64`, `usize`, `u16`, `u32` are modelled as `ℕ` (with `Nat`
  subtraction standing in for `saturating_sub` where the source uses it).
* `f32` (whiff confidence/pressure) is idealised as `ℚ`.
* Rust `HashMap`/`HashSet` are modelled as association lists / lists with
  the same lookup-insert-remove semantics; where the source iterates a
  `HashMap` in unspecified order the model fixes the insertion order (a
  deterministic refinement — no claim below depends on that order).
* Mutation is modelled by explicit state passing; `&mut Vec` result
  accumulation becomes a returned list, appended in the same order the
  source pushes.
* Write-only observability counters (`ScanStats`) and wall-clock timing are
  not modelled: they are never read back by any code path under claim.
* Bounded recursion in the DFS routines is expressed with a `fuel`
  argument; the top-level entry points supply fuel strictly larger than
  the depth bound enforced by the source's own `depth < … - 1` guards, so
  the fuel never runs out on the modelled executions.
-/

open Classical

/-! ## Association-list primitives (model of `HashMap`) -/

/-- First binding for `k`, i.e. `HashMap::get`. -/
def alookup {α β : Type} [DecidableEq α] (k : α) : List (α × β) → Option β
  | [] => none
  | (k', v) :: rest => if k' = k then some v else alookup k rest

/-- `HashMap::insert`: overwrite the existing binding in place, else append. -/
def ainsert {α β : Type} [DecidableEq α] (k : α) (v : β) : List (α × β) → List (α × β)
  | [] => [(k, v)]
  | (k', v') :: rest => if k' = k then (k, v) :: rest else (k', v') :: ainsert k v rest

/-- `HashMap::remove`: drop every binding for `k`. -/
def aremove {α β : Type} [DecidableEq α] (k : α) : List (α × β) → List (α × β)
  | [] => []
  | (k', v') :: rest => if k' = k then aremove k rest else (k', v') :: aremove k rest

/-- Modify the binding for `k` in place when present. -/
def amodify {α β : Type} [DecidableEq α] (k : α) (f : β → β) : List (α × β) → List (α × β)
  | [] => []
  | (k', v') :: rest => if k' = k then (k', f v') :: rest else (k', v') :: amodify k f rest

/-- `HashSet::insert` (only membership is ever observed). -/
def sinsert {α : Type} [DecidableEq α] (x : α) (l : List α) : List α :=
  if x ∈ l then l else x :: l

/-! ## Profit arithmetic (log-space weights)

`weight = -ln(exchange_rate)`, `profit_pct = (exp(-total_weight) - 1) * 100`.
A `⊤` weight (disabled edge) gives `exp(-∞) = 0`, hence profit `-100`,
exactly as IEEE `f64` arithmetic behaves in the source. -/

/-- `(-w).exp()` on the `f64` value `w`, which is a real number or `+∞`. -/
noncomputable def expNeg (w : EReal) : ℝ :=
  if w = ⊤ then 0 else Real.exp (-w.toReal)

/-- `profit_pct = ((-total_weight).exp() - 1.0) * 100.0`. -/
noncomputable def profitPct (w : EReal) : ℝ :=
  (expNeg w - 1) * 100

/-! ## `graph.rs` — `PoolEdge` and `HopGraph` -/

/-- A directed edge (one swap direction of one pool) in the token graph. -/
structure PoolEdge where
  source_mint : String
  target_mint : String
  pool_address : String
  exchange_rate : ℝ
  weight : EReal
  fee_bps : ℕ
  liquidity_usd : ℕ
  last_update_slot : ℕ
  dex : String

/-- `PoolEdge::new`: derives `weight = -ln(rate)`, or `+∞` for a
non-positive rate (edge disabled). -/
noncomputable def PoolEdge.new (source_mint target_mint pool_address : String)
    (exchange_rate : ℝ) (fee_bps liquidity_usd last_update_slot : ℕ)
    (dex : String) : PoolEdge :=
  { source_mint := source_mint
    target_mint := target_mint
    pool_address := pool_address
    exchange_rate := exchange_rate
    weight := if 0 < exchange_rate then ((-Real.log exchange_rate : ℝ) : EReal) else ⊤
    fee_bps := fee_bps
    liquidity_usd := liquidity_usd
    last_update_slot := last_update_slot
    dex := dex }

/-- `PoolEdge::is_stale`. -/
def PoolEdge.is_stale (e : PoolEdge) (min_slot : ℕ) : Bool :=
  decide (e.last_update_slot < min_slot)

/-- The pool matrix: adjacency lists plus a positional pool index. -/
structure HopGraph where
  edges : List (String × List PoolEdge)
  pool_index : List (String × (String × ℕ))
  nodes : List String
  edge_count : ℕ

/-- `HopGraph::new`. -/
def HopGraph.new : HopGraph :=
  { edges := [], pool_index := [], nodes := [], edge_count := 0 }

/-- `HopGraph::update_edge`: in-place update when the pool is already
indexed (and the index entry resolves), else append and index. -/
def HopGraph.update_edge (g : HopGraph) (edge : PoolEdge) : HopGraph :=
  let nodes' := sinsert edge.target_mint (sinsert edge.source_mint g.nodes)
  let inPlace : Option HopGraph :=
    match alookup edge.pool_address g.pool_index with
    | none => none
    | some (source, idx) =>
      match alookup source g.edges with
      | none => none
      | some es =>
        match es[idx]? with
        | none => none
        | some existing =>
          let updated := { existing with
            exchange_rate := edge.exchange_rate
            weight := edge.weight
            liquidity_usd := edge.liquidity_usd
            last_update_slot := edge.last_update_slot
            fee_bps := edge.fee_bps }
          some { g with nodes := nodes', edges := ainsert source (es.set idx updated) g.edges }
  match inPlace with
  | some g' => g'
  | none =>
    let source := edge.source_mint
    let es := (alookup source g.edges).getD []
    let idx := es.length
    { edges := ainsert source (es ++ [edge]) g.edges
      pool_index := ainsert edge.pool_address (source, idx) g.pool_index
      nodes := nodes'
      edge_count := g.edge_count + 1 }

/-- `HopGraph::get_outbound`: all outbound edges, empty for unknown mints. -/
def HopGraph.get_outbound (g : HopGraph) (mint : String) : List PoolEdge :=
  (alookup mint g.edges).getD []

/-- `HopGraph::get_edge`: resolve a pool address through the index. -/
def HopGraph.get_edge (g : HopGraph) (pool_address : String) : Option PoolEdge :=
  match alookup pool_address g.pool_index with
  | none => none
  | some (source, idx) =>
    match alookup source g.edges with
    | none => none
    | some es => es[idx]?

/-- `HopGraph::has_node`. -/
def HopGraph.has_node (g : HopGraph) (mint : String) : Bool :=
  decide (mint ∈ g.nodes)

/-- `HopGraph::node_count`. -/
def HopGraph.node_count (g : HopGraph) : ℕ :=
  g.nodes.length

/-- Intermediate state of the `prune_stale` loop over adjacency entries. -/
structure PruneSt where
  entries : List (String × List PoolEdge)
  pools_to_remove : List String
  pruned : ℕ
  edge_count : ℕ
  pool_index : List (String × (String × ℕ))

/-- Re-register every remaining edge of one source in the pool index
(indices may have shifted after removal). -/
def reindexOne (source : String) (es : List PoolEdge)
    (pi : List (String × (String × ℕ))) : List (String × (String × ℕ)) :=
  es.enum.foldl (fun pi p => ainsert p.2.pool_address (source, p.1) pi) pi

/-- One iteration of the `prune_stale` loop body for a source entry. -/
def pruneStep (min_slot : ℕ) (st : PruneSt) (entry : String × List PoolEdge) : PruneSt :=
  let stale := entry.2.filter (fun e => e.is_stale min_slot)
  let keep := entry.2.filter (fun e => !e.is_stale min_slot)
  { entries := st.entries ++ [(entry.1, keep)]
    pools_to_remove := st.pools_to_remove ++ stale.map (fun e => e.pool_address)
    pruned := st.pruned + stale.length
    edge_count := st.edge_count - stale.length
    pool_index := reindexOne entry.1 keep st.pool_index }

/-- `HopGraph::prune_stale`: removes edges with `last_update_slot < min_slot`,
reindexes the survivors, drops the pruned pools from the index and the
now-empty sources, and returns the number pruned. -/
def HopGraph.prune_stale (g : HopGraph) (min_slot : ℕ) : ℕ × HopGraph :=
  let st := g.edges.foldl (pruneStep min_slot)
    { entries := [], pools_to_remove := [], pruned := 0
      edge_count := g.edge_count, pool_index := g.pool_index }
  let pi := st.pools_to_remove.foldl (fun pi p => aremove p pi) st.pool_index
  (st.pruned,
    { edges := st.entries.filter (fun kv => !kv.2.isEmpty)
      pool_index := pi
      nodes := g.nodes
      edge_count := st.edge_count })

/-- `HopGraph::clear`. -/
def HopGraph.clear (_g : HopGraph) : HopGraph :=
  HopGraph.new

/-! ## `cycle_finder.rs` — `CycleFinder` -/

/-- A profitable arbitrage cycle found by `CycleFinder`. -/
structure HopCycle where
  path : List String
  pool_addresses : List String
  theoretical_profit_pct : ℝ
  min_liquidity_usd : ℕ
  total_fee_bps : ℕ
  hop_count : ℕ
  total_weight : EReal

/-- The bounded-DFS cycle finder. -/
structure CycleFinder where
  max_hops : ℕ
  min_profit_threshold : ℝ
  min_liquidity_usd : ℕ

/-- `CycleFinder::new` (`max_hops` clamped to `3..=5`). -/
def CycleFinder.new (max_hops : ℕ) (min_profit_threshold : ℝ)
    (min_liquidity_usd : ℕ) : CycleFinder :=
  { max_hops := min (max max_hops 3) 5
    min_profit_threshold := min_profit_threshold
    min_liquidity_usd := min_liquidity_usd }

/-- `CycleFinder::dfs_find_cycles`: bounded DFS emitting cycles that close
back at `start_mint` with `depth ≥ 2` and meet the profit threshold.
Emissions are returned (in push order) instead of pushed to `&mut results`. -/
noncomputable def dfs_find_cycles (finder : CycleFinder) (g : HopGraph) (fuel : ℕ)
    (start_mint current_mint : String) (path pools : List String)
    (total_weight : EReal) (min_liquidity total_fees depth : ℕ) : List HopCycle :=
  match fuel with
  | 0 => []
  | fuel + 1 =>
    (g.get_outbound current_mint).foldl (fun results edge =>
      if edge.liquidity_usd < finder.min_liquidity_usd then results
      else if edge.target_mint ∈ path.drop 1 ∧ edge.target_mint ≠ start_mint then results
      else
        let new_weight := total_weight + edge.weight
        let new_liquidity := min min_liquidity edge.liquidity_usd
        let new_fees := total_fees + edge.fee_bps
        if edge.target_mint = start_mint ∧ 2 ≤ depth then
          let profit_pct := profitPct new_weight
          if finder.min_profit_threshold * 100 ≤ profit_pct then
            results ++ [{ path := path ++ [start_mint]
                          pool_addresses := pools ++ [edge.pool_address]
                          theoretical_profit_pct := profit_pct
                          min_liquidity_usd := new_liquidity
                          total_fee_bps := min new_fees 65535
                          hop_count := depth + 1
                          total_weight := new_weight }]
          else results
        else if depth < finder.max_hops - 1 then
          results ++ dfs_find_cycles finder g fuel start_mint edge.target_mint
            (path ++ [edge.target_mint]) (pools ++ [edge.pool_address])
            new_weight new_liquidity new_fees (depth + 1)
        else results) []

/-- `CycleFinder::find_cycles`: DFS from every liquid outbound edge of the
start mint, then sort by profit descending (stable). -/
noncomputable def CycleFinder.find_cycles (finder : CycleFinder) (g : HopGraph)
    (start_mint : String) : List HopCycle :=
  if ¬ start_mint ∈ g.nodes then []
  else
    let cycles := (g.get_outbound start_mint).foldl (fun cycles edge =>
      if edge.liquidity_usd < finder.min_liquidity_usd then cycles
      else cycles ++ dfs_find_cycles finder g finder.max_hops start_mint edge.target_mint
        [start_mint, edge.target_mint] [edge.pool_address]
        edge.weight edge.liquidity_usd edge.fee_bps 1) []
    cycles.mergeSort (fun a b => decide (b.theoretical_profit_pct ≤ a.theoretical_profit_pct))

/-! ## `multiverse.rs` — `MultiverseScanner` -/

/-- A cycle detected at a specific hop level by the multiverse scanner. -/
structure MultiverseCycle where
  path : List String
  pool_addresses : List String
  hop_count : ℕ
  profit_pct : ℝ
  min_liquidity_usd : ℕ
  total_fee_bps : ℕ
  dexes : List String
  estimated_gas_lamports : ℕ

/-- Memoization cache: `(start_mint, current_mint, hops) ↦ best weight`. -/
abbrev Memo := List ((String × String × ℕ) × EReal)

/-- Scanner configuration. The `memo_cache` field of the Rust struct is
cleared at the start of every `scan_multiverse` call, so it is threaded
explicitly through the scan below rather than stored here. -/
structure MultiverseScanner where
  min_hops : ℕ
  max_hops : ℕ
  min_profit_thresholds : List (ℕ × ℝ)
  min_liquidity_usd : ℕ
  max_cycles_per_level : ℕ

/-- `MultiverseScanner::new`: hop bounds clamped to `2..=5`, default
per-depth profit thresholds `{2 ↦ 0.20, 3 ↦ 0.15, 4 ↦ 0.10, 5 ↦ 0.08}`. -/
noncomputable def MultiverseScanner.new (min_hops max_hops min_liquidity_usd
    max_cycles_per_level : ℕ) : MultiverseScanner :=
  { min_hops := min (max min_hops 2) 5
    max_hops := min (max max_hops 2) 5
    min_profit_thresholds := [(2, 0.20), (3, 0.15), (4, 0.10), (5, 0.08)]
    min_liquidity_usd := min_liquidity_usd
    max_cycles_per_level := max_cycles_per_level }

/-- `MultiverseScanner::set_threshold`: stores `min_profit_pct / 100`. -/
noncomputable def MultiverseScanner.set_threshold (s : MultiverseScanner)
    (hop_count : ℕ) (min_profit_pct : ℝ) : MultiverseScanner :=
  if 2 ≤ hop_count ∧ hop_count ≤ 5 then
    { s with min_profit_thresholds :=
        ainsert hop_count (min_profit_pct / 100) s.min_profit_thresholds }
  else s

/-- `MultiverseScanner::dfs_exact_hops`: DFS accepting cycles exactly at
`target_hops`, with memoized sub-path pruning and optimistic
remaining-weight pruning. Returns emissions (in push order) and the
updated memo cache. -/
noncomputable def dfs_exact_hops (s : MultiverseScanner) (g : HopGraph) (fuel : ℕ)
    (start_mint current_mint : String) (path pools dexes : List String)
    (total_weight : EReal) (min_liquidity total_fees depth target_hops : ℕ)
    (min_profit : ℝ) (memo : Memo) : List MultiverseCycle × Memo :=
  match fuel with
  | 0 => ([], memo)
  | fuel + 1 =>
    let memo_key := (start_mint, current_mint, depth)
    if match alookup memo_key memo with
       | some cached => cached < total_weight
       | none => False then
      ([], memo)
    else
      let memo := ainsert memo_key total_weight memo
      (g.get_outbound current_mint).foldl (fun (acc : List MultiverseCycle × Memo) edge =>
        let results := acc.1
        let memo := acc.2
        if edge.liquidity_usd < s.min_liquidity_usd then (results, memo)
        else if edge.target_mint ∈ path.drop 1 ∧ edge.target_mint ≠ start_mint then
          (results, memo)
        else
          let new_weight := total_weight + edge.weight
          let new_liquidity := min min_liquidity edge.liquidity_usd
          let new_fees := total_fees + edge.fee_bps
          if edge.target_mint = start_mint ∧ depth + 1 = target_hops then
            let profit_pct := profitPct new_weight
            if min_profit * 100 ≤ profit_pct then
              (results ++ [{ path := path ++ [start_mint]
                             pool_addresses := pools ++ [edge.pool_address]
                             hop_count := depth + 1
                             profit_pct := profit_pct
                             min_liquidity_usd := new_liquidity
                             total_fee_bps := min new_fees 65535
                             dexes := dexes ++ [edge.dex]
                             estimated_gas_lamports := (depth + 1) * 80000 * 5 }], memo)
            else (results, memo)
          else if depth < target_hops - 1 then
            let remaining_hops := target_hops - depth - 1
            if (0 : EReal) < new_weight + (((-3/1000 : ℝ) * (remaining_hops : ℝ) : ℝ) : EReal)
            then (results, memo)
            else
              let sub := dfs_exact_hops s g fuel start_mint edge.target_mint
                (path ++ [edge.target_mint]) (pools ++ [edge.pool_address])
                (dexes ++ [edge.dex]) new_weight new_liquidity new_fees
                (depth + 1) target_hops min_profit memo
              (results ++ sub.1, sub.2)
          else (results, memo)) ([], memo)

/-- `MultiverseScanner::find_cycles_at_level`: DFS from every liquid
outbound edge, then sort by profit descending and truncate to
`max_cycles_per_level`. -/
noncomputable def find_cycles_at_level (s : MultiverseScanner) (g : HopGraph)
    (start_mint : String) (target_hops : ℕ) (min_profit : ℝ)
    (memo : Memo) : List MultiverseCycle × Memo :=
  let r := (g.get_outbound start_mint).foldl (fun (acc : List MultiverseCycle × Memo) edge =>
    if edge.liquidity_usd < s.min_liquidity_usd then acc
    else
      let sub := dfs_exact_hops s g target_hops start_mint edge.target_mint
        [start_mint, edge.target_mint] [edge.pool_address] [edge.dex]
        edge.weight edge.liquidity_usd edge.fee_bps 1 target_hops min_profit acc.2
      (acc.1 ++ sub.1, sub.2)) ([], memo)
  ((r.1.mergeSort (fun a b => decide (b.profit_pct ≤ a.profit_pct))).take s.max_cycles_per_level,
    r.2)

/-- Result of a multiverse scan (`ScanStats` counters are not modelled). -/
structure MultiverseResult where
  cycles_by_hops : List (ℕ × List MultiverseCycle)
  best_cycle : Option MultiverseCycle

/-- `max_by` on profit over all levels (last maximal element wins). -/
noncomputable def bestCycleOf (all : List (ℕ × List MultiverseCycle)) : Option MultiverseCycle :=
  (all.foldr (fun kv acc => kv.2 ++ acc) []).foldl (fun best c =>
    match best with
    | none => some c
    | some b => if b.profit_pct ≤ c.profit_pct then some c else some b) none

/-- `MultiverseScanner::scan_multiverse`: clears the memo cache, runs one
exact-depth search per hop level in `min_hops..=max_hops` (threading the
memo cache across levels), keeps the non-empty levels, and picks the best
cycle across levels. -/
noncomputable def MultiverseScanner.scan_multiverse (s : MultiverseScanner)
    (g : HopGraph) (start_mint : String) : MultiverseResult :=
  if ¬ start_mint ∈ g.nodes then { cycles_by_hops := [], best_cycle := none }
  else
    let levels := (List.range (s.max_hops + 1 - s.min_hops)).map (s.min_hops + ·)
    let r := levels.foldl (fun (acc : List (ℕ × List MultiverseCycle) × Memo) hop_level =>
      let threshold := (alookup hop_level s.min_profit_thresholds).getD 0.10
      let c := find_cycles_at_level s g start_mint hop_level threshold acc.2
      (if c.1.isEmpty then acc.1 else acc.1 ++ [(hop_level, c.1)], c.2)) ([], [])
    { cycles_by_hops := r.1, best_cycle := bestCycleOf r.1 }

/-! ### The memo-free reference search (for the refinement claim C4)

The specification describes the memoized prune as reversible: removing the
memo check must not change the returned cycle set. The following variant
is `dfs_exact_hops` with the memo check and memo writes removed and
nothing else changed. -/

/-- `dfs_exact_hops` with the memoization check removed (spec's reference
semantics; all other pruning identical). -/
noncomputable def dfs_exact_hops_nomemo (s : MultiverseScanner) (g : HopGraph) (fuel : ℕ)
    (start_mint current_mint : String) (path pools dexes : List String)
    (total_weight : EReal) (min_liquidity total_fees depth target_hops : ℕ)
    (min_profit : ℝ) : List MultiverseCycle :=
  match fuel with
  | 0 => []
  | fuel + 1 =>
    (g.get_outbound current_mint).foldl (fun results edge =>
      if edge.liquidity_usd < s.min_liquidity_usd then results
      else if edge.target_mint ∈ path.drop 1 ∧ edge.target_mint ≠ start_mint then results
      else
        let new_weight := total_weight + edge.weight
        let new_liquidity := min min_liquidity edge.liquidity_usd
        let new_fees := total_fees + edge.fee_bps
        if edge.target_mint = start_mint ∧ depth + 1 = target_hops then
          let profit_pct := profitPct new_weight
          if min_profit * 100 ≤ profit_pct then
            results ++ [{ path := path ++ [start_mint]
                          pool_addresses := pools ++ [edge.pool_address]
                          hop_count := depth + 1
                          profit_pct := profit_pct
                          min_liquidity_usd := new_liquidity
                          total_fee_bps := min new_fees 65535
                          dexes := dexes ++ [edge.dex]
                          estimated_gas_lamports := (depth + 1) * 80000 * 5 }]
          else results
        else if depth < target_hops - 1 then
          let remaining_hops := target_hops - depth - 1
          if (0 : EReal) < new_weight + (((-3/1000 : ℝ) * (remaining_hops : ℝ) : ℝ) : EReal)
          then results
          else
            results ++ dfs_exact_hops_nomemo s g fuel start_mint edge.target_mint
              (path ++ [edge.target_mint]) (pools ++ [edge.pool_address])
              (dexes ++ [edge.dex]) new_weight new_liquidity new_fees
              (depth + 1) target_hops min_profit
        else results) []

/-- `find_cycles_at_level` with the memo check removed. -/
noncomputable def find_cycles_at_level_nomemo (s : MultiverseScanner) (g : HopGraph)
    (start_mint : String) (target_hops : ℕ) (min_profit : ℝ) : List MultiverseCycle :=
  let cycles := (g.get_outbound start_mint).foldl (fun results edge =>
    if edge.liquidity_usd < s.min_liquidity_usd then results
    else
      results ++ dfs_exact_hops_nomemo s g target_hops start_mint edge.target_mint
        [start_mint, edge.target_mint] [edge.pool_address] [edge.dex]
        edge.weight edge.liquidity_usd edge.fee_bps 1 target_hops min_profit) []
  (cycles.mergeSort (fun a b => decide (b.profit_pct ≤ a.profit_pct))).take s.max_cycles_per_level

/-- `scan_multiverse` with the memo check removed. -/
noncomputable def MultiverseScanner.scan_multiverse_nomemo (s : MultiverseScanner)
    (g : HopGraph) (start_mint : String) : MultiverseResult :=
  if ¬ start_mint ∈ g.nodes then { cycles_by_hops := [], best_cycle := none }
  else
    let levels := (List.range (s.max_hops + 1 - s.min_hops)).map (s.min_hops + ·)
    let all := levels.foldl (fun acc hop_level =>
      let threshold := (alookup hop_level s.min_profit_thresholds).getD 0.10
      let c := find_cycles_at_level_nomemo s g start_mint hop_level threshold
      if c.isEmpty then acc else acc ++ [(hop_level, c)]) []
    { cycles_by_hops := all, best_cycle := bestCycleOf all }

/-! ## `slot_consensus.rs` — dedup, slot tracking, consensus engine -/

/-- Rolling signature set with batch eviction at capacity. -/
structure SignatureDedup where
  seen : List String
  max_size : ℕ
  eviction_batch : ℕ

/-- `SignatureDedup::new` (`eviction_batch = max_size / 4`). -/
def SignatureDedup.new (max_size : ℕ) : SignatureDedup :=
  { seen := [], max_size := max_size, eviction_batch := max_size / 4 }

/-- `SignatureDedup::is_new`: evicts a batch when at capacity (the source
takes an arbitrary iteration-order batch from a `HashSet`; the model
deterministically takes the oldest entries), then inserts; returns whether
the signature was absent. -/
def SignatureDedup.is_new (d : SignatureDedup) (signature : String) :
    Bool × SignatureDedup :=
  let seen := if d.max_size ≤ d.seen.length then d.seen.drop d.eviction_batch else d.seen
  if signature ∈ seen then (false, { d with seen := seen })
  else (true, { d with seen := seen ++ [signature] })

/-- `SignatureDedup::clear`. -/
def SignatureDedup.clear (d : SignatureDedup) : SignatureDedup :=
  { d with seen := [] }

/-- Latest-slot watermark plus per-provider high-water marks. -/
structure SlotTracker where
  latest_slot : ℕ
  per_provider_slots : List (String × ℕ)
  max_slot_lag : ℕ

/-- `SlotTracker::new`. -/
def SlotTracker.new (max_slot_lag : ℕ) : SlotTracker :=
  { latest_slot := 0, per_provider_slots := [], max_slot_lag := max_slot_lag }

/-- `SlotTracker::update_slot`: updates the provider high-water mark and
returns `1` (newer, watermark advanced), `0` (current, within lag) or
`-1` (stale). `saturating_sub` is `Nat` subtraction. -/
def SlotTracker.update_slot (t : SlotTracker) (provider : String) (slot : ℕ) :
    ℤ × SlotTracker :=
  let providers :=
    if (alookup provider t.per_provider_slots).isSome then
      amodify provider (fun s => max slot s) t.per_provider_slots
    else t.per_provider_slots ++ [(provider, slot)]
  if t.latest_slot < slot then
    (1, { t with latest_slot := slot, per_provider_slots := providers })
  else if t.latest_slot - t.max_slot_lag ≤ slot then
    (0, { t with per_provider_slots := providers })
  else
    (-1, { t with per_provider_slots := providers })

/-- `SlotTracker::is_acceptable`. -/
def SlotTracker.is_acceptable (t : SlotTracker) (slot : ℕ) : Bool :=
  decide (t.latest_slot - t.max_slot_lag ≤ slot)

/-- `SlotTracker::get_latest_slot`. -/
def SlotTracker.get_latest_slot (t : SlotTracker) : ℕ :=
  t.latest_slot

/-- `SlotTracker::reset`. -/
def SlotTracker.reset (t : SlotTracker) : SlotTracker :=
  { t with latest_slot := 0, per_provider_slots := [] }

/-- The consensus gate: staleness check first, then dedup, with counters. -/
structure ConsensusEngine where
  dedup : SignatureDedup
  slot_tracker : SlotTracker
  accepted_count : ℕ
  duplicate_count : ℕ
  stale_count : ℕ

/-- `ConsensusEngine::new`. -/
def ConsensusEngine.new (max_signatures max_slot_lag : ℕ) : ConsensusEngine :=
  { dedup := SignatureDedup.new max_signatures
    slot_tracker := SlotTracker.new max_slot_lag
    accepted_count := 0, duplicate_count := 0, stale_count := 0 }

/-- `ConsensusEngine::should_process`: slot freshness first (mutating the
tracker even on rejection), then dedup (mutating the seen-set), then
accept. -/
def ConsensusEngine.should_process (e : ConsensusEngine)
    (provider signature : String) (slot : ℕ) : Bool × ConsensusEngine :=
  let r := e.slot_tracker.update_slot provider slot
  if r.1 < 0 then
    (false, { e with slot_tracker := r.2, stale_count := e.stale_count + 1 })
  else
    let d := e.dedup.is_new signature
    if !d.1 then
      (false,
        { e with
          slot_tracker := r.2
          dedup := d.2
          duplicate_count := e.duplicate_count + 1 })
    else
      (true,
        { e with
          slot_tracker := r.2
          dedup := d.2
          accepted_count := e.accepted_count + 1 })

/-- `ConsensusEngine::get_stats` exposes the watermark as its last entry. -/
def ConsensusEngine.get_latest_slot (e : ConsensusEngine) : ℕ :=
  e.slot_tracker.get_latest_slot

/-! ## `whiff_buffer.rs` — burst collapse buffer -/

/-- A parsed whiff (intelligence) event, from `log_parser.rs`. -/
structure WhiffEvent where
  whiff_type : String
  mint : String
  amount : ℕ
  confidence : ℚ
  direction : String
  source : String

/-- Per-mint pressure accumulators. `last_update_ms` is declared in the
source but never written by any code path (it keeps its `Default` value). -/
structure PressureState where
  bullish : ℚ
  bearish : ℚ
  volatile : ℚ
  event_count : ℕ
  last_update_ms : ℕ

/-- `PressureState::default()`. -/
def PressureState.default : PressureState :=
  { bullish := 0, bearish := 0, volatile := 0, event_count := 0, last_update_ms := 0 }

/-- Ring buffer of recent whiff events plus per-mint pressure states. -/
structure WhiffBuffer where
  buffer : List (WhiffEvent × ℕ)
  capacity : ℕ
  pressure_map : List (String × PressureState)

/-- `WhiffBuffer::new`. -/
def WhiffBuffer.new (capacity : ℕ) : WhiffBuffer :=
  { buffer := [], capacity := capacity, pressure_map := [] }

/-- `WhiffBuffer::update_pressure`: nudge the direction's accumulator
toward 1.0 by `confidence * 0.3`, capped at 1.0; bump the event count.
Note the source never writes `last_update_ms` here (or anywhere). -/
def update_pressure (pm : List (String × PressureState)) (event : WhiffEvent) :
    List (String × PressureState) :=
  let state := (alookup event.mint pm).getD PressureState.default
  let weight := event.confidence
  let state :=
    if event.direction = "BULLISH" then
      { state with bullish := min (state.bullish + weight * 0.3) 1 }
    else if event.direction = "BEARISH" then
      { state with bearish := min (state.bearish + weight * 0.3) 1 }
    else if event.direction = "VOLATILE" then
      { state with volatile := min (state.volatile + weight * 0.3) 1 }
    else state
  ainsert event.mint { state with event_count := state.event_count + 1 } pm

/-- `WhiffBuffer::push`: update pressure, then ring-buffer append (oldest
evicted at capacity). -/
def WhiffBuffer.push (b : WhiffBuffer) (event : WhiffEvent) (timestamp_ms : ℕ) :
    WhiffBuffer :=
  let pm := update_pressure b.pressure_map event
  let buf := if b.capacity ≤ b.buffer.length then b.buffer.drop 1 else b.buffer
  { b with pressure_map := pm, buffer := buf ++ [(event, timestamp_ms)] }

/-- `WhiffBuffer::get_pressure`. -/
def WhiffBuffer.get_pressure (b : WhiffBuffer) (mint : String) : ℚ × ℚ × ℚ :=
  match alookup mint b.pressure_map with
  | some st => (st.bullish, st.bearish, st.volatile)
  | none => (0, 0, 0)

/-- `WhiffBuffer::prune`: evict buffer entries older than `max_age_ms`,
then decay (×0.9) the accumulators of every mint whose `last_update_ms`
precedes the 30-second decay window. -/
def WhiffBuffer.prune (b : WhiffBuffer) (max_age_ms current_time_ms : ℕ) : WhiffBuffer :=
  let cutoff := current_time_ms - max_age_ms
  let buf := b.buffer.dropWhile (fun it => decide (it.2 < cutoff))
  let decay_cutoff := current_time_ms - 30000
  let pm := b.pressure_map.map (fun kv =>
    if kv.2.last_update_ms < decay_cutoff then
      (kv.1, { kv.2 with
        bullish := kv.2.bullish * 0.9
        bearish := kv.2.bearish * 0.9
        volatile := kv.2.volatile * 0.9 })
    else kv)
  { b with buffer := buf, pressure_map := pm }

/-! ## Association-list lemmas -/

theorem alookup_ainsert_self {α β : Type} [DecidableEq α] (k : α) (v : β) (l : List (α × β)) :
    alookup k (ainsert k v l) = some v := by
  induction l with
  | nil => simp [ainsert, alookup]
  | cons kv rest ih =>
    by_cases h : kv.1 = k
    · simp [ainsert, alookup, h]
    · simpa [ainsert, alookup, h] using ih

theorem alookup_ainsert_ne {α β : Type} [DecidableEq α] {k' k : α} (h : k' ≠ k)
    (v : β) (l : List (α × β)) : alookup k' (ainsert k v l) = alookup k' l := by
  have h' : ¬ k = k' := fun hh => h hh.symm
  induction l with
  | nil => simp [ainsert, alookup, h']
  | cons kv rest ih =>
    by_cases hk : kv.1 = k
    · subst hk
      simp [ainsert, alookup, h']
    · by_cases hk' : kv.1 = k'
      · simp [ainsert, alookup, hk, hk', h]
      · simpa [ainsert, alookup, hk, hk'] using ih

theorem alookup_amodify_self {α β : Type} [DecidableEq α] (k : α) (f : β → β)
    (l : List (α × β)) : alookup k (amodify k f l) = (alookup k l).map f := by
  induction l with
  | nil => simp [amodify, alookup]
  | cons kv rest ih =>
    by_cases h : kv.1 = k
    · simp [amodify, alookup, h]
    · simpa [amodify, alookup, h] using ih

theorem alookup_aremove_self {α β : Type} [DecidableEq α] (k : α) (l : List (α × β)) :
    alookup k (aremove k l) = none := by
  induction l with
  | nil => simp [aremove, alookup]
  | cons kv rest ih =>
    by_cases h : kv.1 = k
    · simpa [aremove, alookup, h] using ih
    · simpa [aremove, alookup, h] using ih

theorem alookup_aremove_ne {α β : Type} [DecidableEq α] {k' k : α} (h : k' ≠ k)
    (l : List (α × β)) : alookup k' (aremove k l) = alookup k' l := by
  have h' : ¬ k = k' := fun hh => h hh.symm
  induction l with
  | nil => simp [aremove]
  | cons kv rest ih =>
    by_cases hk : kv.1 = k
    · subst hk
      simpa [aremove, alookup, h'] using ih
    · by_cases hk' : kv.1 = k'
      · simp [aremove, alookup, hk, hk', h]
      · simpa [aremove, alookup, hk, hk'] using ih

theorem alookup_append {α β : Type} [DecidableEq α] (k : α) (l l' : List (α × β)) :
    alookup k (l ++ l') =
      match alookup k l with
      | some v => some v
      | none => alookup k l' := by
  induction l with
  | nil => simp [alookup]
  | cons kv rest ih =>
    by_cases h : kv.1 = k
    · simp [alookup, h]
    · simpa [alookup, h] using ih

theorem alookup_eq_none {α β : Type} [DecidableEq α] {k : α} {l : List (α × β)} :
    alookup k l = none ↔ k ∉ l.map Prod.fst := by
  induction l with
  | nil => simp [alookup]
  | cons kv rest ih =>
    by_cases h : kv.1 = k
    · simp [alookup, h]
    · simp [alookup, h, ih, Ne.symm h]

theorem alookup_isSome_of_mem {α β : Type} [DecidableEq α] {k : α} {v : β}
    {l : List (α × β)} (h : (k, v) ∈ l) : (alookup k l).isSome := by
  induction l with
  | nil => simp at h
  | cons kv rest ih =>
    rcases List.mem_cons.mp h with h | h
    · simp [← h, alookup]
    · by_cases hk : kv.1 = k
      · simp [alookup, hk]
      · simpa [alookup, hk] using ih h

/-! ## Claim C8 — staleness monotonicity of `should_process` -/

/-- One `should_process` call viewed as a state transition. -/
def stepSP (e : ConsensusEngine) (c : String × String × ℕ) : ConsensusEngine :=
  (e.should_process c.1 c.2.1 c.2.2).2

theorem should_process_lag_const (e : ConsensusEngine) (p sig : String) (slot : ℕ) :
    ((e.should_process p sig slot).2).slot_tracker.max_slot_lag =
      e.slot_tracker.max_slot_lag := by
  simp only [ConsensusEngine.should_process, SlotTracker.update_slot, SignatureDedup.is_new]
  split_ifs <;> rfl

theorem should_process_latest_mono (e : ConsensusEngine) (p sig : String) (slot : ℕ) :
    e.slot_tracker.latest_slot ≤
      ((e.should_process p sig slot).2).slot_tracker.latest_slot := by
  simp only [ConsensusEngine.should_process, SlotTracker.update_slot, SignatureDedup.is_new]
  split_ifs <;> simp_all <;> omega

theorem should_process_stale_false (e : ConsensusEngine) (p sig : String) (slot : ℕ)
    (h : slot + e.slot_tracker.max_slot_lag < e.slot_tracker.latest_slot) :
    (e.should_process p sig slot).1 = false := by
  simp only [ConsensusEngine.should_process, SlotTracker.update_slot]
  have h1 : ¬ e.slot_tracker.latest_slot < slot := by omega
  have h2 : ¬ e.slot_tracker.latest_slot - e.slot_tracker.max_slot_lag ≤ slot := by omega
  simp [h1, h2]

/-- Claim C8: once the watermark has reached `S`, any later chain of
`should_process` calls (no reset) rejects every event whose slot lags more
than `max_slot_lag` behind `S`, for every provider and signature. -/
theorem claim_C8_staleness_monotonic (e : ConsensusEngine) (S : ℕ)
    (hS : S ≤ e.slot_tracker.latest_slot)
    (calls : List (String × String × ℕ)) (p sig : String) (slot : ℕ)
    (hstale : slot + e.slot_tracker.max_slot_lag < S) :
    ((calls.foldl stepSP e).should_process p sig slot).1 = false := by
  induction calls generalizing e with
  | nil =>
    exact should_process_stale_false e p sig slot (by omega)
  | cons c rest ih =>
    simp only [List.foldl_cons]
    refine ih (stepSP e c) ?_ ?_
    · exact le_trans hS (should_process_latest_mono e c.1 c.2.1 c.2.2)
    · simpa only [stepSP, should_process_lag_const] using hstale

/-- Witness for C8 at a concrete engine run. -/
theorem claim_C8_witness :
    (((ConsensusEngine.new 10000 2).should_process "providerA" "sigX" 100).2 |>
      (List.foldl stepSP · [("providerB", "sigY", 101)]) |>
      (ConsensusEngine.should_process · "providerC" "sigZ" 50)).1 = false :=
  claim_C8_staleness_monotonic
    ((ConsensusEngine.new 10000 2).should_process "providerA" "sigX" 100).2 100
    (by decide) [("providerB", "sigY", 101)] "providerC" "sigZ" 50 (by decide)

/-! ## Claim C10 — rejected duplicates still advance freshness state -/

/-- Claim C10: a duplicate-signature call whose slot exceeds the watermark
returns `false` yet advances the watermark to that slot and updates the
provider's high-water mark (the dedup set is below capacity, so no
eviction interferes with duplicate detection). -/
theorem claim_C10_reject_mutates (e : ConsensusEngine) (provider signature : String)
    (slot : ℕ) (hdup : signature ∈ e.dedup.seen)
    (hcap : e.dedup.seen.length < e.dedup.max_size)
    (hnew : e.slot_tracker.latest_slot < slot) :
    (e.should_process provider signature slot).1 = false ∧
      ((e.should_process provider signature slot).2).slot_tracker.latest_slot = slot ∧
      ∃ v, alookup provider
          ((e.should_process provider signature slot).2).slot_tracker.per_provider_slots =
          some v ∧ slot ≤ v := by
  have hm : ¬ e.dedup.max_size ≤ e.dedup.seen.length := Nat.not_le.mpr hcap
  have h1 : ¬ (1 : ℤ) < 0 := by decide
  refine ⟨?_, ?_, ?_⟩
  · simp [ConsensusEngine.should_process, SlotTracker.update_slot, SignatureDedup.is_new,
      hnew, hm, hdup, h1]
  · simp [ConsensusEngine.should_process, SlotTracker.update_slot, SignatureDedup.is_new,
      hnew, hm, hdup, h1]
  · by_cases hp : (alookup provider e.slot_tracker.per_provider_slots).isSome
    · rcases Option.isSome_iff_exists.mp hp with ⟨old, hold⟩
      refine ⟨max slot old, ?_, le_max_left _ _⟩
      simp [ConsensusEngine.should_process, SlotTracker.update_slot, SignatureDedup.is_new,
        hnew, hm, hdup, h1, hp, alookup_amodify_self, hold]
    · have hnone : alookup provider e.slot_tracker.per_provider_slots = none :=
        Option.not_isSome_iff_eq_none.mp hp
      refine ⟨slot, ?_, le_refl slot⟩
      simp [ConsensusEngine.should_process, SlotTracker.update_slot, SignatureDedup.is_new,
        hnew, hm, hdup, h1, hp, alookup_append, hnone, alookup]

/-- Witness for C10 at a concrete engine state. -/
theorem claim_C10_witness :
    ((((ConsensusEngine.new 10000 2).should_process "providerA" "sigX" 100).2).should_process
        "providerB" "sigX" 150).1 = false ∧
      (((((ConsensusEngine.new 10000 2).should_process "providerA" "sigX" 100).2).should_process
        "providerB" "sigX" 150).2).slot_tracker.latest_slot = 150 ∧
      ∃ v, alookup "providerB"
          (((((ConsensusEngine.new 10000 2).should_process "providerA" "sigX" 100).2).should_process
            "providerB" "sigX" 150).2).slot_tracker.per_provider_slots = some v ∧ 150 ≤ v :=
  claim_C10_reject_mutates
    ((ConsensusEngine.new 10000 2).should_process "providerA" "sigX" 100).2
    "providerB" "sigX" 150 (by decide) (by decide) (by decide)

/-! ## Claim C5 — `prune` decays even freshly-updated entities (code bug) -/

/-- A concrete whiff event for the failing input of C5. -/
def c5Event : WhiffEvent :=
  { whiff_type := "WHALE_MINT", mint := "MINT1", amount := 0
    confidence := 1, direction := "BULLISH", source := "CCTP" }

/-- Claim C5, failing input: the event is pushed at t = 50 000 ms and
`prune` runs at t = 60 000 ms — only 10 s later, well inside the 30 s decay
window — yet the mint's bullish accumulator is decayed from 0.3 to 0.27,
because the source never writes `last_update_ms` (it stays 0). -/
theorem claim_C5_prune_decays_recent :
    (((WhiffBuffer.new 16).push c5Event 50000).prune 100000 60000).get_pressure "MINT1"
        = (27/100, 0, 0) ∧
      ((WhiffBuffer.new 16).push c5Event 50000).get_pressure "MINT1" = (3/10, 0, 0) := by
  constructor <;>
    · simp only [WhiffBuffer.new, WhiffBuffer.push, WhiffBuffer.prune,
        WhiffBuffer.get_pressure, update_pressure, PressureState.default, c5Event,
        alookup, ainsert]
      norm_num [min_def]

/-! ## Claim C2 — both directions of one pool collapse to a single edge -/

/-- `SOL → USDC` direction of pool `POOL1`. -/
noncomputable def c2e1 : PoolEdge :=
  PoolEdge.new "SOL" "USDC" "POOL1" 100 25 1000000 1000 "RAYDIUM"

/-- `USDC → SOL` direction of the same pool `POOL1`. -/
noncomputable def c2e2 : PoolEdge :=
  PoolEdge.new "USDC" "SOL" "POOL1" (1/100) 25 1000000 1000 "RAYDIUM"

/-- The graph after upserting both directions of `POOL1`. -/
noncomputable def c2graph : HopGraph :=
  (HopGraph.new.update_edge c2e1).update_edge c2e2

/-- Claim C2 counterexample: after upserting both directions of one pool,
the graph holds one edge, not two, and the reverse source has no outbound
edges (the claim asserts `edge_count() = 2` and a `B → A` edge under `B`). -/
theorem claim_C2_counterexample :
    c2graph.edge_count = 1 ∧ c2graph.get_outbound "USDC" = [] := by
  constructor
  · rfl
  · rfl

/-- Claim C2 (amended): upserting the reverse direction of an already-known
pool id overwrites the stored forward edge in place — its rate, weight,
liquidity, slot and fee become those of the reverse edge while its
source/target/pool stay put; `edge_count()` is 1 and the reverse source has
no outbound edges. Two edges arise only under distinct pool ids. -/
theorem claim_C2_amended (e1 e2 : PoolEdge)
    (hst : e2.source_mint = e1.target_mint) (hts : e2.target_mint = e1.source_mint)
    (hpool : e2.pool_address = e1.pool_address)
    (hne : e1.source_mint ≠ e1.target_mint) :
    ((HopGraph.new.update_edge e1).update_edge e2).edge_count = 1 ∧
    ((HopGraph.new.update_edge e1).update_edge e2).get_outbound e1.target_mint = [] ∧
    ((HopGraph.new.update_edge e1).update_edge e2).get_outbound e1.source_mint =
      [{ e1 with
           exchange_rate := e2.exchange_rate
           weight := e2.weight
           liquidity_usd := e2.liquidity_usd
           last_update_slot := e2.last_update_slot
           fee_bps := e2.fee_bps }] ∧
    ((HopGraph.new.update_edge e1).update_edge e2).get_edge e1.pool_address =
      some { e1 with
           exchange_rate := e2.exchange_rate
           weight := e2.weight
           liquidity_usd := e2.liquidity_usd
           last_update_slot := e2.last_update_slot
           fee_bps := e2.fee_bps } := by
  have hg1 : HopGraph.new.update_edge e1 =
      { edges := [(e1.source_mint, [e1])]
        pool_index := [(e1.pool_address, (e1.source_mint, 0))]
        nodes := sinsert e1.target_mint (sinsert e1.source_mint [])
        edge_count := 1 } := rfl
  rw [hg1]
  have hne' : e1.target_mint ≠ e1.source_mint := Ne.symm hne
  refine ⟨?_, ?_, ?_, ?_⟩ <;>
    simp [HopGraph.update_edge, HopGraph.get_outbound, HopGraph.get_edge,
      alookup, ainsert, hpool, hne, hne']

/-- Witness for the amended C2 at the concrete pool above. -/
theorem claim_C2_witness :
    c2graph.edge_count = 1 ∧
    c2graph.get_outbound "USDC" = [] ∧
    c2graph.get_outbound "SOL" =
      [{ c2e1 with
           exchange_rate := c2e2.exchange_rate
           weight := c2e2.weight
           liquidity_usd := c2e2.liquidity_usd
           last_update_slot := c2e2.last_update_slot
           fee_bps := c2e2.fee_bps }] ∧
    c2graph.get_edge "POOL1" =
      some { c2e1 with
           exchange_rate := c2e2.exchange_rate
           weight := c2e2.weight
           liquidity_usd := c2e2.liquidity_usd
           last_update_slot := c2e2.last_update_slot
           fee_bps := c2e2.fee_bps } :=
  claim_C2_amended c2e1 c2e2 rfl rfl rfl (by decide)

/-! ## Claim C9 — weight/rate consistency under `update_edge` -/

/-- The §3 weight invariant: `weight = -ln(rate)` for positive rates and
`+∞` otherwise. -/
def WeightConsistent (e : PoolEdge) : Prop :=
  (0 < e.exchange_rate → e.weight = ((-Real.log e.exchange_rate : ℝ) : EReal)) ∧
  (e.exchange_rate ≤ 0 → e.weight = ⊤)

theorem new_weight_consistent (source target pool : String) (rate : ℝ)
    (fee liq slot : ℕ) (dex : String) :
    WeightConsistent (PoolEdge.new source target pool rate fee liq slot dex) := by
  constructor
  · intro h
    simp only [PoolEdge.new] at h
    simp [PoolEdge.new, h]
  · intro h
    simp only [PoolEdge.new] at h
    simp [PoolEdge.new, not_lt.mpr h]

/-- Any edge stored after `update_edge` is an old stored edge, the new edge
itself, or an old stored edge with rate/weight/liquidity/slot/fee
overwritten from the new edge. -/
theorem mem_get_outbound_update_edge (g : HopGraph) (e : PoolEdge) (s : String)
    (x : PoolEdge) (hx : x ∈ (g.update_edge e).get_outbound s) :
    (∃ s₀, x ∈ g.get_outbound s₀) ∨ x = e ∨
      ∃ ex, (∃ s₀, ex ∈ g.get_outbound s₀) ∧
        x = { ex with
              exchange_rate := e.exchange_rate
              weight := e.weight
              liquidity_usd := e.liquidity_usd
              last_update_slot := e.last_update_slot
              fee_bps := e.fee_bps } := by
  unfold HopGraph.update_edge at hx
  cases h1 : alookup e.pool_address g.pool_index with
  | none =>
    simp only [h1] at hx
    by_cases hs : s = e.source_mint
    · subst hs
      rw [HopGraph.get_outbound, alookup_ainsert_self] at hx
      simp only [Option.getD_some] at hx
      rcases List.mem_append.mp hx with h | h
      · exact Or.inl ⟨e.source_mint, by simpa [HopGraph.get_outbound] using h⟩
      · exact Or.inr (Or.inl (List.mem_singleton.mp h))
    · rw [HopGraph.get_outbound, alookup_ainsert_ne hs] at hx
      exact Or.inl ⟨s, hx⟩
  | some si =>
    obtain ⟨source, idx⟩ := si
    cases h2 : alookup source g.edges with
    | none =>
      simp only [h1, h2] at hx
      by_cases hs : s = e.source_mint
      · subst hs
        rw [HopGraph.get_outbound, alookup_ainsert_self] at hx
        simp only [Option.getD_some] at hx
        rcases List.mem_append.mp hx with h | h
        · exact Or.inl ⟨e.source_mint, by simpa [HopGraph.get_outbound] using h⟩
        · exact Or.inr (Or.inl (List.mem_singleton.mp h))
      · rw [HopGraph.get_outbound, alookup_ainsert_ne hs] at hx
        exact Or.inl ⟨s, hx⟩
    | some es =>
      cases h3 : es[idx]? with
      | none =>
        simp only [h1, h2, h3] at hx
        by_cases hs : s = e.source_mint
        · subst hs
          rw [HopGraph.get_outbound, alookup_ainsert_self] at hx
          simp only [Option.getD_some] at hx
          rcases List.mem_append.mp hx with h | h
          · exact Or.inl ⟨e.source_mint, by simpa [HopGraph.get_outbound] using h⟩
          · exact Or.inr (Or.inl (List.mem_singleton.mp h))
        · rw [HopGraph.get_outbound, alookup_ainsert_ne hs] at hx
          exact Or.inl ⟨s, hx⟩
      | some existing =>
        simp only [h1, h2, h3] at hx
        by_cases hs : s = source
        · subst hs
          rw [HopGraph.get_outbound, alookup_ainsert_self] at hx
          simp only [Option.getD_some] at hx
          rcases List.mem_or_eq_of_mem_set hx with h | h
          · exact Or.inl ⟨s, by simp [HopGraph.get_outbound, h2, h]⟩
          · refine Or.inr (Or.inr ⟨existing, ⟨s, ?_⟩, h⟩)
            have hmem : existing ∈ es := List.getElem?_mem h3
            simp [HopGraph.get_outbound, h2, hmem]
        · rw [HopGraph.get_outbound, alookup_ainsert_ne hs] at hx
          exact Or.inl ⟨s, hx⟩

/-- Claim C9: starting from any graph whose stored edges satisfy the weight
invariant, `update_edge` with a constructor-produced edge keeps every
stored edge's `weight` equal to `-ln(exchange_rate)` when the rate is
positive and `+∞` when it is not. -/
theorem claim_C9_weight_rate_consistency (g : HopGraph)
    (hg : ∀ s x, x ∈ g.get_outbound s → WeightConsistent x)
    (source target pool : String) (rate : ℝ) (fee liq slot : ℕ) (dex : String) :
    ∀ s x, x ∈ (g.update_edge
        (PoolEdge.new source target pool rate fee liq slot dex)).get_outbound s →
      WeightConsistent x := by
  intro s x hx
  rcases mem_get_outbound_update_edge g _ s x hx with ⟨s₀, h⟩ | rfl | ⟨ex, _, rfl⟩
  · exact hg s₀ x h
  · exact new_weight_consistent source target pool rate fee liq slot dex
  · have hc := new_weight_consistent source target pool rate fee liq slot dex
    constructor
    · intro h
      exact hc.1 h
    · intro h
      exact hc.2 h

/-- Witness for C9: the single stored edge after one `update_edge` from the
empty graph carries weight `-ln 100`. -/
theorem claim_C9_witness :
    (PoolEdge.new "SOL" "USDC" "POOL1" 100 25 1000000 1000 "RAYDIUM").weight
      = ((-Real.log 100 : ℝ) : EReal) :=
  (claim_C9_weight_rate_consistency HopGraph.new
    (by intro s x hx; simp [HopGraph.get_outbound, HopGraph.new, alookup] at hx)
    "SOL" "USDC" "POOL1" 100 25 1000000 1000 "RAYDIUM" "SOL"
    (PoolEdge.new "SOL" "USDC" "POOL1" 100 25 1000000 1000 "RAYDIUM")
    (List.mem_singleton.mpr rfl)).1 (by norm_num [PoolEdge.new])

/-! ## Claim C7 — graph well-formedness and `prune_stale` correctness -/

theorem alookup_mem {α β : Type} [DecidableEq α] {k : α} {v : β} {l : List (α × β)}
    (h : alookup k l = some v) : (k, v) ∈ l := by
  induction l with
  | nil => simp [alookup] at h
  | cons kv rest ih =>
    rw [alookup] at h
    by_cases hk : kv.1 = k
    · rw [if_pos hk] at h
      injection h with h'
      have : kv = (k, v) := Prod.ext hk h'
      rw [← this]
      exact List.mem_cons_self _ _
    · rw [if_neg hk] at h
      exact List.mem_cons_of_mem _ (ih h)

theorem keys_nodup_mem_unique {α β : Type} [DecidableEq α] {l : List (α × β)}
    (hnd : (l.map Prod.fst).Nodup) {k : α} {v1 v2 : β}
    (h1 : (k, v1) ∈ l) (h2 : (k, v2) ∈ l) : v1 = v2 := by
  induction l with
  | nil => simp at h1
  | cons kv rest ih =>
    simp only [List.map_cons, List.nodup_cons] at hnd
    rcases List.mem_cons.mp h1 with e1 | m1 <;> rcases List.mem_cons.mp h2 with e2 | m2
    · have he : (k, v1) = ((k, v2) : α × β) := e1.trans e2.symm
      simpa using he
    · exfalso
      refine hnd.1 ?_
      rw [← e1]
      exact List.mem_map.mpr ⟨(k, v2), m2, rfl⟩
    · exfalso
      refine hnd.1 ?_
      rw [← e2]
      exact List.mem_map.mpr ⟨(k, v1), m1, rfl⟩
    · exact ih hnd.2 m1 m2

theorem alookup_of_mem_nodup {α β : Type} [DecidableEq α] {l : List (α × β)}
    (hnd : (l.map Prod.fst).Nodup) {k : α} {v : β} (h : (k, v) ∈ l) :
    alookup k l = some v := by
  induction l with
  | nil => simp at h
  | cons kv rest ih =>
    simp only [List.map_cons, List.nodup_cons] at hnd
    rcases List.mem_cons.mp h with e | m
    · rw [← e]
      simp [alookup]
    · have hk : kv.1 ≠ k := by
        intro hh
        exact hnd.1 (hh ▸ List.mem_map.mpr ⟨(k, v), m, rfl⟩)
      rw [alookup, if_neg hk]
      exact ih hnd.2 m

theorem alookup_filter_of_mem {α β : Type} [DecidableEq α] {l : List (α × β)}
    (hnd : (l.map Prod.fst).Nodup) {k : α} {v : β} (h : (k, v) ∈ l)
    {P : α × β → Bool} (hP : P (k, v) = true) :
    alookup k (l.filter P) = some v := by
  have hsub : ((l.filter P).map Prod.fst).Sublist (l.map Prod.fst) :=
    (List.filter_sublist l).map _
  exact alookup_of_mem_nodup (hsub.nodup hnd) (List.mem_filter.mpr ⟨h, hP⟩)

/-- Well-formedness of a `HopGraph`: the invariant every state reachable
through the public API satisfies — source keys are unique, the pool index
points exactly at each stored edge, and the stored edge counter matches
the adjacency lists. -/
structure HopGraph.WF (g : HopGraph) : Prop where
  edges_keys_nodup : (g.edges.map Prod.fst).Nodup
  index_complete : ∀ s es, (s, es) ∈ g.edges → ∀ i (h : i < es.length),
    alookup es[i].pool_address g.pool_index = some (s, i)
  index_sound : ∀ p s i, alookup p g.pool_index = some (s, i) →
    ∃ es, (s, es) ∈ g.edges ∧ ∃ h : i < es.length, es[i].pool_address = p
  count_eq : g.edge_count = (g.edges.map (fun kv => kv.2.length)).sum

/-- In a well-formed graph the pool addresses within one adjacency list are
pairwise distinct. -/
theorem HopGraph.WF.pools_nodup_entry {g : HopGraph} (hw : g.WF) {s : String}
    {es : List PoolEdge} (hmem : (s, es) ∈ g.edges) :
    (es.map (fun e => e.pool_address)).Nodup := by
  rw [List.nodup_iff_injective_get]
  intro a b hab
  rw [List.get_map, List.get_map] at hab
  have ha := hw.index_complete s es hmem a.1 (by
    have := a.2
    simpa using this)
  have hb := hw.index_complete s es hmem b.1 (by
    have := b.2
    simpa using this)
  rw [List.get_eq_getElem, List.get_eq_getElem] at hab
  rw [hab] at ha
  rw [ha] at hb
  injection hb with hb'
  have hfst : (b : ℕ) = (a : ℕ) := (Prod.mk.injEq _ _ _ _ |>.mp hb'.symm).right
  exact Fin.ext (by simpa using hfst.symm)

/-- In a well-formed graph a pool address determines its storage location. -/
theorem HopGraph.WF.pool_unique {g : HopGraph} (hw : g.WF)
    {s1 s2 : String} {es1 es2 : List PoolEdge}
    (h1 : (s1, es1) ∈ g.edges) (h2 : (s2, es2) ∈ g.edges)
    {i1 i2 : ℕ} (hi1 : i1 < es1.length) (hi2 : i2 < es2.length)
    (hpool : es1[i1].pool_address = es2[i2].pool_address) :
    s1 = s2 ∧ i1 = i2 ∧ es1 = es2 := by
  have ha := hw.index_complete s1 es1 h1 i1 hi1
  have hb := hw.index_complete s2 es2 h2 i2 hi2
  rw [hpool, hb] at ha
  injection ha with ha'
  have hs : s2 = s1 := (Prod.mk.injEq _ _ _ _ |>.mp ha').1
  have hi : i2 = i1 := (Prod.mk.injEq _ _ _ _ |>.mp ha').2
  subst hs
  refine ⟨rfl, hi.symm, ?_⟩
  exact (keys_nodup_mem_unique hw.edges_keys_nodup h1 h2).symm ▸ rfl

theorem pools_nodup_getElem_inj {es : List PoolEdge}
    (hnd : (es.map (fun e => e.pool_address)).Nodup) {i j : ℕ}
    (hi : i < es.length) (hj : j < es.length)
    (h : es[i].pool_address = es[j].pool_address) : i = j := by
  rw [List.nodup_iff_injective_get] at hnd
  have hlen : (es.map (fun e => e.pool_address)).length = es.length := by simp
  have := @hnd ⟨i, by simpa [hlen] using hi⟩ ⟨j, by simpa [hlen] using hj⟩
    (by
      rw [List.get_map, List.get_map]
      simpa using h)
  simpa using congrArg Fin.val this

theorem alookup_foldl_reindex_not_mem (s : String) (ps : List (ℕ × PoolEdge))
    (pi : List (String × (String × ℕ))) {p : String}
    (h : ∀ q ∈ ps, q.2.pool_address ≠ p) :
    alookup p (ps.foldl (fun pi q => ainsert q.2.pool_address (s, q.1) pi) pi) =
      alookup p pi := by
  induction ps generalizing pi with
  | nil => rfl
  | cons q rest ih =>
    rw [List.foldl_cons]
    rw [ih _ (fun q' hq' => h q' (List.mem_cons_of_mem _ hq'))]
    exact alookup_ainsert_ne (fun hh => h q (List.mem_cons_self _ _) hh.symm) _ _

theorem alookup_foldl_reindex_mem (s : String) (ps : List (ℕ × PoolEdge))
    (pi : List (String × (String × ℕ))) {j : ℕ} {e : PoolEdge}
    (hmem : (j, e) ∈ ps)
    (huniq : ∀ q ∈ ps, q.2.pool_address = e.pool_address → q = (j, e)) :
    alookup e.pool_address
      (ps.foldl (fun pi q => ainsert q.2.pool_address (s, q.1) pi) pi) = some (s, j) := by
  induction ps generalizing pi with
  | nil => simp at hmem
  | cons q rest ih =>
    rw [List.foldl_cons]
    by_cases hr : (j, e) ∈ rest
    · exact ih _ hr (fun q' hq' => huniq q' (List.mem_cons_of_mem _ hq'))
    · have hq : q = (j, e) := by
        rcases List.mem_cons.mp hmem with hh | hh
        · exact hh.symm
        · exact absurd hh hr
      subst hq
      rw [alookup_foldl_reindex_not_mem s rest _ (fun q' hq' hp => by
        have := huniq q' (List.mem_cons_of_mem _ hq') hp
        exact hr (this ▸ hq'))]
      exact alookup_ainsert_self _ _ _

theorem alookup_reindexOne_not_mem (s : String) (es : List PoolEdge)
    (pi : List (String × (String × ℕ))) {p : String}
    (h : ∀ e ∈ es, e.pool_address ≠ p) :
    alookup p (reindexOne s es pi) = alookup p pi := by
  refine alookup_foldl_reindex_not_mem s es.enum pi (fun q hq => ?_)
  have := List.mem_enum hq
  exact this.2 ▸ h _ (List.getElem_mem _)

theorem alookup_reindexOne_mem (s : String) (es : List PoolEdge)
    (pi : List (String × (String × ℕ))) {j : ℕ} (hj : j < es.length) {p : String}
    (hp : es[j].pool_address = p)
    (hnd : (es.map (fun e => e.pool_address)).Nodup) :
    alookup p (reindexOne s es pi) = some (s, j) := by
  subst hp
  refine alookup_foldl_reindex_mem s es.enum pi ?_ ?_
  · have h1 : j < es.enum.length := by simpa using hj
    have h2 : es.enum.get ⟨j, h1⟩ = (j, es[j]) := by
      simp [List.getElem_enum]
    rw [← h2]
    exact List.get_mem _ _ _
  · intro q hq hpq
    obtain ⟨qi, qe⟩ := q
    have hqspec := List.mem_enum hq
    simp only at hqspec hpq
    have hqi : qi = j := pools_nodup_getElem_inj hnd hqspec.1 hj
      (by rw [hqspec.2] at hpq; exact hpq)
    subst hqi
    exact Prod.ext rfl hqspec.2

theorem alookup_foldl_reindexAll_not_mem (m : ℕ) (l : List (String × List PoolEdge))
    (pi : List (String × (String × ℕ))) {p : String}
    (h : ∀ kv ∈ l, ∀ e ∈ kv.2.filter (fun e => !e.is_stale m), e.pool_address ≠ p) :
    alookup p (l.foldl
      (fun pi kv => reindexOne kv.1 (kv.2.filter (fun e => !e.is_stale m)) pi) pi) =
      alookup p pi := by
  induction l generalizing pi with
  | nil => rfl
  | cons kv rest ih =>
    rw [List.foldl_cons]
    rw [ih _ (fun kv' h' => h kv' (List.mem_cons_of_mem _ h'))]
    exact alookup_reindexOne_not_mem _ _ _ (h kv (List.mem_cons_self _ _))

theorem alookup_foldl_reindexAll_mem (m : ℕ) (l : List (String × List PoolEdge))
    (pi : List (String × (String × ℕ))) {p : String} {s : String} {es : List PoolEdge}
    (hmem : (s, es) ∈ l) {j : ℕ}
    (hj : j < (es.filter (fun e => !e.is_stale m)).length)
    (hp : (es.filter (fun e => !e.is_stale m))[j].pool_address = p)
    (hnd : ((es.filter (fun e => !e.is_stale m)).map (fun e => e.pool_address)).Nodup)
    (huniq : ∀ kv ∈ l, ∀ e ∈ kv.2.filter (fun e => !e.is_stale m),
      e.pool_address = p → kv = (s, es)) :
    alookup p (l.foldl
      (fun pi kv => reindexOne kv.1 (kv.2.filter (fun e => !e.is_stale m)) pi) pi) =
      some (s, j) := by
  induction l generalizing pi with
  | nil => simp at hmem
  | cons kv rest ih =>
    rw [List.foldl_cons]
    by_cases hr : (s, es) ∈ rest
    · exact ih _ hr (fun kv' h' => huniq kv' (List.mem_cons_of_mem _ h'))
    · have hkv : kv = (s, es) := by
        rcases List.mem_cons.mp hmem with hh | hh
        · exact hh.symm
        · exact absurd hh hr
      subst hkv
      rw [alookup_foldl_reindexAll_not_mem m rest _ (fun kv' h' e he hpe => by
        have := huniq kv' (List.mem_cons_of_mem _ h') e he hpe
        exact hr (this ▸ h'))]
      exact alookup_reindexOne_mem _ _ _ hj hp hnd

theorem alookup_foldl_aremove {β : Type} (ps : List String)
    (pi : List (String × β)) (p : String) :
    alookup p (ps.foldl (fun pi q => aremove q pi) pi) =
      if p ∈ ps then none else alookup p pi := by
  induction ps generalizing pi with
  | nil => simp
  | cons q rest ih =>
    rw [List.foldl_cons, ih]
    by_cases hq : p = q
    · subst hq
      by_cases hr : p ∈ rest <;> simp [hr, alookup_aremove_self]
    · by_cases hr : p ∈ rest <;>
        simp [hr, hq, alookup_aremove_ne hq]

theorem prune_foldl_spec (m : ℕ) (l : List (String × List PoolEdge)) (st : PruneSt) :
    (l.foldl (pruneStep m) st).entries =
      st.entries ++ l.map (fun kv => (kv.1, kv.2.filter (fun e => !e.is_stale m))) ∧
    (l.foldl (pruneStep m) st).pools_to_remove =
      st.pools_to_remove ++ l.flatMap
        (fun kv => (kv.2.filter (fun e => e.is_stale m)).map (fun e => e.pool_address)) ∧
    (l.foldl (pruneStep m) st).pruned =
      st.pruned + (l.map (fun kv => (kv.2.filter (fun e => e.is_stale m)).length)).sum ∧
    (l.foldl (pruneStep m) st).edge_count =
      st.edge_count - (l.map (fun kv => (kv.2.filter (fun e => e.is_stale m)).length)).sum ∧
    (l.foldl (pruneStep m) st).pool_index =
      l.foldl (fun pi kv =>
        reindexOne kv.1 (kv.2.filter (fun e => !e.is_stale m)) pi) st.pool_index := by
  induction l generalizing st with
  | nil => simp
  | cons kv rest ih =>
    rw [List.foldl_cons, List.foldl_cons]
    obtain ⟨ih1, ih2, ih3, ih4, ih5⟩ := ih (pruneStep m st kv)
    refine ⟨?_, ?_, ?_, ?_, ?_⟩
    · rw [ih1]
      simp [pruneStep, List.append_assoc]
    · rw [ih2]
      simp [pruneStep, List.append_assoc]
    · rw [ih3]
      simp [pruneStep]
      ring
    · rw [ih4]
      simp [pruneStep, Nat.sub_sub]
    · rw [ih5]
      rfl

/-- The number of stored edges with `last_update_slot < m`. -/
def staleCount (g : HopGraph) (m : ℕ) : ℕ :=
  (g.edges.map (fun kv => (kv.2.filter (fun e => e.is_stale m)).length)).sum

/-- Claim C7: on a well-formed graph (the invariant of every state built
through the API), `prune_stale` returns exactly the number of stored stale
edges, `edge_count` drops by exactly that number, every pruned pool stops
resolving through `get_edge`, and every surviving edge still resolves to
itself through its pool address. -/
theorem claim_C7_prune_stale_correct (g : HopGraph) (hw : g.WF) (m : ℕ) :
    (g.prune_stale m).1 = staleCount g m ∧
    (g.prune_stale m).2.edge_count + staleCount g m = g.edge_count ∧
    (∀ s es, (s, es) ∈ g.edges → ∀ e ∈ es, e.is_stale m = true →
      (g.prune_stale m).2.get_edge e.pool_address = none) ∧
    (∀ s es, (s, es) ∈ g.edges → ∀ e ∈ es, e.is_stale m = false →
      (g.prune_stale m).2.get_edge e.pool_address = some e) := by
  obtain ⟨hent, hrem, hpr, hec, hpi⟩ := prune_foldl_spec m g.edges
    { entries := [], pools_to_remove := [], pruned := 0
      edge_count := g.edge_count, pool_index := g.pool_index }
  have hstale_le : staleCount g m ≤ g.edge_count := by
    rw [hw.count_eq]
    exact List.sum_le_sum (fun kv _ => List.length_filter_le _ _)
  refine ⟨?_, ?_, ?_, ?_⟩
  · simp only [HopGraph.prune_stale]
    rw [hpr]
    simp [staleCount]
  · simp only [HopGraph.prune_stale]
    rw [hec]
    simp only [staleCount] at hstale_le ⊢
    omega
  · intro s es hmem e he hstale
    have hprem : e.pool_address ∈
        (g.edges.foldl (pruneStep m)
          { entries := [], pools_to_remove := [], pruned := 0
            edge_count := g.edge_count, pool_index := g.pool_index }).pools_to_remove := by
      rw [hrem]
      simp only [List.nil_append]
      exact List.mem_flatMap.mpr ⟨(s, es), hmem,
        List.mem_map.mpr ⟨e, List.mem_filter.mpr ⟨he, hstale⟩, rfl⟩⟩
    simp only [HopGraph.prune_stale, HopGraph.get_edge]
    rw [alookup_foldl_aremove, if_pos hprem]
  · intro s es hmem e he hstale
    have hkeep : e ∈ es.filter (fun e => !e.is_stale m) :=
      List.mem_filter.mpr ⟨he, by simp [hstale]⟩
    obtain ⟨j, hj, hgetj⟩ := List.mem_iff_getElem.mp hkeep
    have hndkeep : ((es.filter (fun e => !e.is_stale m)).map
        (fun e => e.pool_address)).Nodup :=
      ((List.filter_sublist es).map _).nodup (hw.pools_nodup_entry hmem)
    have hpool_unique : ∀ kv ∈ g.edges, ∀ x ∈ kv.2,
        x.pool_address = e.pool_address → kv = (s, es) ∧ x = e := by
      intro kv hkv x hx hpx
      obtain ⟨t, ts⟩ := kv
      obtain ⟨i1, hi1, hget1⟩ := List.mem_iff_getElem.mp hx
      obtain ⟨i2, hi2, hget2⟩ := List.mem_iff_getElem.mp he
      obtain ⟨hs', hi', hes'⟩ := hw.pool_unique hkv hmem hi1 hi2
        (by
          have hq1 := congrArg (fun z => z.pool_address) hget1
          have hq2 := congrArg (fun z => z.pool_address) hget2
          simp only at hq1 hq2
          rw [hq1, hq2]
          exact hpx)
      subst hs'
      subst hes'
      subst hi'
      exact ⟨rfl, hget1.symm.trans hget2⟩
    have hnotrem : e.pool_address ∉
        (g.edges.foldl (pruneStep m)
          { entries := [], pools_to_remove := [], pruned := 0
            edge_count := g.edge_count, pool_index := g.pool_index }).pools_to_remove := by
      rw [hrem]
      simp only [List.nil_append]
      intro hcon
      obtain ⟨kv, hkv, hmem2⟩ := List.mem_flatMap.mp hcon
      obtain ⟨x, hxf, hpx⟩ := List.mem_map.mp hmem2
      have hx2 := List.mem_filter.mp hxf
      obtain ⟨_, hxe⟩ := hpool_unique kv hkv x hx2.1 hpx
      rw [hxe, hstale] at hx2
      exact Bool.false_ne_true hx2.2
    have hlook : alookup e.pool_address (g.edges.foldl
        (fun pi kv => reindexOne kv.1 (kv.2.filter (fun e => !e.is_stale m)) pi)
        g.pool_index) = some (s, j) := by
      refine alookup_foldl_reindexAll_mem m g.edges g.pool_index hmem hj
        (by rw [hgetj]) hndkeep ?_
      intro kv hkv x hxf hpx
      exact (hpool_unique kv hkv x (List.mem_filter.mp hxf).1 hpx).1
    have hkeys : ((g.edges.map (fun kv =>
        (kv.1, kv.2.filter (fun e => !e.is_stale m)))).map Prod.fst) =
        g.edges.map Prod.fst := by
      rw [List.map_map]
      rfl
    have hedge : alookup s ((g.edges.map (fun kv =>
        (kv.1, kv.2.filter (fun e => !e.is_stale m)))).filter
          (fun kv => !kv.2.isEmpty)) = some (es.filter (fun e => !e.is_stale m)) := by
      refine alookup_filter_of_mem ?_
        (show ((s, es.filter (fun e => !e.is_stale m)) : String × List PoolEdge) ∈
            g.edges.map (fun kv => (kv.1, kv.2.filter (fun e => !e.is_stale m))) from
          List.mem_map.mpr ⟨(s, es), hmem, rfl⟩) ?_
      · rw [hkeys]
        exact hw.edges_keys_nodup
      · simp only
        cases hfe : es.filter (fun e => !e.is_stale m)
        · rw [hfe] at hkeep
          simp at hkeep
        · rfl
    simp only [HopGraph.prune_stale, HopGraph.get_edge]
    rw [alookup_foldl_aremove, if_neg hnotrem, hpi, hlook]
    rw [hent]
    simp only [List.nil_append]
    rw [hedge]
    show (es.filter (fun e => !e.is_stale m))[j]? = some e
    rw [List.getElem?_eq_getElem hj]
    exact congrArg some hgetj

theorem ainsert_of_not_mem {α β : Type} [DecidableEq α] {k : α} (v : β)
    {l : List (α × β)} (h : k ∉ l.map Prod.fst) : ainsert k v l = l ++ [(k, v)] := by
  induction l with
  | nil => rfl
  | cons kv rest ih =>
    have hk : kv.1 ≠ k := by
      intro hh
      exact h (List.mem_map.mpr ⟨kv, List.mem_cons_self _ _, hh⟩)
    rw [ainsert, if_neg hk, List.cons_append, ih (fun hh => h (by
      rcases List.mem_map.mp hh with ⟨x, hx, hx'⟩
      exact List.mem_map.mpr ⟨x, List.mem_cons_of_mem _ hx, hx'⟩))]

theorem ainsert_keys_of_mem {α β : Type} [DecidableEq α] {k : α} (v : β)
    {l : List (α × β)} (h : k ∈ l.map Prod.fst) :
    (ainsert k v l).map Prod.fst = l.map Prod.fst := by
  induction l with
  | nil => simp at h
  | cons kv rest ih =>
    by_cases hk : kv.1 = k
    · rw [ainsert, if_pos hk]
      simp [hk]
    · rw [ainsert, if_neg hk]
      have hr : k ∈ rest.map Prod.fst := by
        rcases List.mem_map.mp h with ⟨x, hx, hx'⟩
        rcases List.mem_cons.mp hx with rfl | hx2
        · exact absurd hx' hk
        · exact List.mem_map.mpr ⟨x, hx2, hx'⟩
      simp [ih hr]

theorem mem_ainsert_of_keys_nodup {α β : Type} [DecidableEq α] {k : α} {v : β}
    {l : List (α × β)} (hnd : (l.map Prod.fst).Nodup) (hk : k ∈ l.map Prod.fst)
    (x : α × β) : x ∈ ainsert k v l ↔ x = (k, v) ∨ (x ∈ l ∧ x.1 ≠ k) := by
  induction l with
  | nil => simp at hk
  | cons kv rest ih =>
    simp only [List.map_cons, List.nodup_cons] at hnd
    by_cases hkk : kv.1 = k
    · rw [ainsert, if_pos hkk]
      constructor
      · intro hx
        rcases List.mem_cons.mp hx with rfl | hx2
        · exact Or.inl rfl
        · refine Or.inr ⟨List.mem_cons_of_mem _ hx2, ?_⟩
          intro hx1
          exact hnd.1 (hkk ▸ hx1 ▸ List.mem_map.mpr ⟨x, hx2, rfl⟩)
      · intro hx
        rcases hx with rfl | ⟨hx2, hx1⟩
        · exact List.mem_cons_self _ _
        · rcases List.mem_cons.mp hx2 with rfl | hx3
          · exact absurd hkk hx1
          · exact List.mem_cons_of_mem _ hx3
    · rw [ainsert, if_neg hkk]
      have hr : k ∈ rest.map Prod.fst := by
        rcases List.mem_map.mp hk with ⟨y, hy, hy'⟩
        rcases List.mem_cons.mp hy with rfl | hy2
        · exact absurd hy' hkk
        · exact List.mem_map.mpr ⟨y, hy2, hy'⟩
      constructor
      · intro hx
        rcases List.mem_cons.mp hx with rfl | hx2
        · exact Or.inr ⟨List.mem_cons_self _ _, hkk⟩
        · rcases (ih hnd.2 hr).mp hx2 with h1 | ⟨h2, h3⟩
          · exact Or.inl h1
          · exact Or.inr ⟨List.mem_cons_of_mem _ h2, h3⟩
      · intro hx
        rcases hx with rfl | ⟨hx2, hx1⟩
        · exact List.mem_cons_of_mem _ ((ih hnd.2 hr).mpr (Or.inl rfl))
        · rcases List.mem_cons.mp hx2 with rfl | hx3
          · exact List.mem_cons_self _ _
          · exact List.mem_cons_of_mem _ ((ih hnd.2 hr).mpr (Or.inr ⟨hx3, hx1⟩))

theorem sum_lengths_ainsert_of_mem {α : Type} [DecidableEq α] {k : α}
    {v0 : List PoolEdge} {l : List (α × List PoolEdge)}
    (hnd : (l.map Prod.fst).Nodup) (hmem : (k, v0) ∈ l) (v : List PoolEdge) :
    ((ainsert k v l).map (fun kv => kv.2.length)).sum + v0.length =
      (l.map (fun kv => kv.2.length)).sum + v.length := by
  induction l with
  | nil => simp at hmem
  | cons kv rest ih =>
    simp only [List.map_cons, List.nodup_cons] at hnd
    by_cases hkk : kv.1 = k
    · rw [ainsert, if_pos hkk]
      have hv0 : kv.2 = v0 := by
        rcases List.mem_cons.mp hmem with rfl | hx2
        · rfl
        · exact absurd (hkk ▸ List.mem_map.mpr ⟨(k, v0), hx2, rfl⟩) hnd.1
      simp [← hv0]
      omega
    · rw [ainsert, if_neg hkk]
      have hr : (k, v0) ∈ rest := by
        rcases List.mem_cons.mp hmem with rfl | hx2
        · exact absurd rfl hkk
        · exact hx2
      simp only [List.map_cons, List.sum_cons]
      have := ih hnd.2 hr
      omega

/-- The empty graph is well-formed. -/
theorem wf_new : HopGraph.new.WF := by
  refine ⟨?_, ?_, ?_, ?_⟩ <;> simp [HopGraph.new, alookup]

theorem update_edge_inplace_eq (g : HopGraph) (e : PoolEdge)
    {source : String} {idx : ℕ} {es : List PoolEdge} {ex : PoolEdge}
    (h1 : alookup e.pool_address g.pool_index = some (source, idx))
    (h2 : alookup source g.edges = some es)
    (h3 : es[idx]? = some ex) :
    g.update_edge e = { g with
      nodes := sinsert e.target_mint (sinsert e.source_mint g.nodes)
      edges := ainsert source (es.set idx { ex with
        exchange_rate := e.exchange_rate
        weight := e.weight
        liquidity_usd := e.liquidity_usd
        last_update_slot := e.last_update_slot
        fee_bps := e.fee_bps }) g.edges } := by
  simp only [HopGraph.update_edge, h1, h2, h3]

theorem update_edge_append_eq (g : HopGraph) (e : PoolEdge)
    (h1 : alookup e.pool_address g.pool_index = none) :
    g.update_edge e =
      { edges := ainsert e.source_mint
          (((alookup e.source_mint g.edges).getD []) ++ [e]) g.edges
        pool_index := ainsert e.pool_address
          (e.source_mint, ((alookup e.source_mint g.edges).getD []).length) g.pool_index
        nodes := sinsert e.target_mint (sinsert e.source_mint g.nodes)
        edge_count := g.edge_count + 1 } := by
  simp only [HopGraph.update_edge, h1]

/-- `update_edge` preserves well-formedness. -/
theorem HopGraph.WF.update_edge {g : HopGraph} (hw : g.WF) (e : PoolEdge) :
    (g.update_edge e).WF := by
  cases h1 : alookup e.pool_address g.pool_index with
  | some si =>
    obtain ⟨source, idx⟩ := si
    obtain ⟨es, hmem, hidx, hpool⟩ := hw.index_sound _ _ _ h1
    have h2 : alookup source g.edges = some es :=
      alookup_of_mem_nodup hw.edges_keys_nodup hmem
    have h3 : es[idx]? = some es[idx] := List.getElem?_eq_getElem hidx
    rw [update_edge_inplace_eq g e h1 h2 h3]
    have hksrc : source ∈ g.edges.map Prod.fst :=
      List.mem_map.mpr ⟨(source, es), hmem, rfl⟩
    refine ⟨?_, ?_, ?_, ?_⟩ <;> simp only []
    · simpa [ainsert_keys_of_mem _ hksrc] using hw.edges_keys_nodup
    · intro s' es' hmem' i hi
      rcases (mem_ainsert_of_keys_nodup hw.edges_keys_nodup hksrc _).mp hmem' with
        heq | ⟨hold, hne⟩
      · obtain ⟨hs', hes'⟩ := Prod.mk.injEq _ _ _ _ |>.mp heq
        subst hs'
        subst hes'
        have hi2 : i < es.length := by simpa [List.length_set] using hi
        by_cases hii : i = idx
        · subst hii
          rw [List.getElem_set_eq (by simpa [List.length_set] using hi2)]
          have := hw.index_complete _ es hmem i hi2
          simpa using this
        · rw [List.getElem_set_ne (fun hh => hii hh.symm)
            (by simpa [List.length_set] using hi2)]
          exact hw.index_complete _ es hmem i hi2
      · exact hw.index_complete s' es' hold i hi
    · intro p s i hlook
      obtain ⟨es0, hmem0, hi0, hp0⟩ := hw.index_sound p s i hlook
      by_cases hs : s = source
      · subst hs
        have hes0 : es0 = es := keys_nodup_mem_unique hw.edges_keys_nodup hmem0 hmem
        subst hes0
        refine ⟨es0.set idx { es0[idx] with
            exchange_rate := e.exchange_rate
            weight := e.weight
            liquidity_usd := e.liquidity_usd
            last_update_slot := e.last_update_slot
            fee_bps := e.fee_bps },
          (mem_ainsert_of_keys_nodup hw.edges_keys_nodup hksrc _).mpr (Or.inl rfl),
          by simpa [List.length_set] using hi0, ?_⟩
        by_cases hii : i = idx
        · subst hii
          rw [List.getElem_set_eq (by simpa [List.length_set] using hi0)]
          exact hp0
        · rw [List.getElem_set_ne (fun hh => hii hh.symm)
            (by simpa [List.length_set] using hi0)]
          exact hp0
      · exact ⟨es0, (mem_ainsert_of_keys_nodup hw.edges_keys_nodup hksrc _).mpr
          (Or.inr ⟨hmem0, hs⟩), hi0, hp0⟩
    · have hsum := sum_lengths_ainsert_of_mem hw.edges_keys_nodup hmem
        (es.set idx { es[idx] with
          exchange_rate := e.exchange_rate
          weight := e.weight
          liquidity_usd := e.liquidity_usd
          last_update_slot := e.last_update_slot
          fee_bps := e.fee_bps })
      have hcount := hw.count_eq
      simp only [List.length_set] at hsum
      omega
  | none =>
    rw [update_edge_append_eq g e h1]
    have hpoolmem : ∀ s0 es0, (s0, es0) ∈ g.edges → ∀ i (hi : i < es0.length),
        es0[i].pool_address ≠ e.pool_address := by
      intro s0 es0 hm i hi heq
      have hcon := hw.index_complete s0 es0 hm i hi
      rw [heq, h1] at hcon
      cases hcon
    cases h2 : alookup e.source_mint g.edges with
    | some es =>
      have hmem : (e.source_mint, es) ∈ g.edges := alookup_mem h2
      have hksrc : e.source_mint ∈ g.edges.map Prod.fst :=
        List.mem_map.mpr ⟨(e.source_mint, es), hmem, rfl⟩
      refine ⟨?_, ?_, ?_, ?_⟩ <;> simp only [h2, Option.getD_some]
      · simpa [ainsert_keys_of_mem _ hksrc] using hw.edges_keys_nodup
      · intro s' es' hmem' i hi
        rcases (mem_ainsert_of_keys_nodup hw.edges_keys_nodup hksrc _).mp hmem' with
          heq | ⟨hold, hne⟩
        · obtain ⟨hs', hes'⟩ := Prod.mk.injEq _ _ _ _ |>.mp heq
          subst hs'
          subst hes'
          simp only [List.length_append, List.length_singleton] at hi
          by_cases hii : i < es.length
          · rw [List.getElem_append_left hii]
            show alookup _ (ainsert e.pool_address (e.source_mint, es.length) g.pool_index)
              = _
            rw [alookup_ainsert_ne (hpoolmem _ _ hmem i hii) _ _]
            exact hw.index_complete _ es hmem i hii
          · have hieq : i = es.length := by omega
            subst hieq
            rw [List.getElem_concat_length es e es.length rfl (by simp)]
            exact alookup_ainsert_self _ _ _
        · show alookup _ (ainsert e.pool_address (e.source_mint, es.length) g.pool_index)
            = _
          rw [alookup_ainsert_ne (hpoolmem s' es' hold i hi) _ _]
          exact hw.index_complete s' es' hold i hi
      · intro p s i hlook
        by_cases hp : p = e.pool_address
        · subst hp
          rw [show alookup e.pool_address
              (ainsert e.pool_address (e.source_mint, es.length) g.pool_index) =
              some (e.source_mint, es.length) from alookup_ainsert_self _ _ _] at hlook
          obtain ⟨hs, hi'⟩ := Prod.mk.injEq _ _ _ _ |>.mp (Option.some_injective _ hlook)
          subst hs
          refine ⟨es ++ [e],
            (mem_ainsert_of_keys_nodup hw.edges_keys_nodup hksrc _).mpr (Or.inl rfl),
            by simp; omega, ?_⟩
          subst hi'
          rw [List.getElem_concat_length es e _ rfl]
        · rw [show alookup p (ainsert e.pool_address (e.source_mint, es.length)
              g.pool_index) = alookup p g.pool_index from
              alookup_ainsert_ne hp _ _] at hlook

          obtain ⟨es0, hmem0, hi0, hp0⟩ := hw.index_sound p s i hlook
          by_cases hs : s = e.source_mint
          · subst hs
            have hes0 : es0 = es := keys_nodup_mem_unique hw.edges_keys_nodup hmem0 hmem
            subst hes0
            refine ⟨es0 ++ [e],
              (mem_ainsert_of_keys_nodup hw.edges_keys_nodup hksrc _).mpr (Or.inl rfl),
              by simp; omega, ?_⟩
            rw [List.getElem_append_left hi0]
            exact hp0
          · exact ⟨es0, (mem_ainsert_of_keys_nodup hw.edges_keys_nodup hksrc _).mpr
              (Or.inr ⟨hmem0, hs⟩), hi0, hp0⟩
      · have hsum := sum_lengths_ainsert_of_mem hw.edges_keys_nodup hmem (es ++ [e])
        have hcount := hw.count_eq
        simp only [List.length_append, List.length_singleton] at hsum
        omega
    | none =>
      have hksrc : e.source_mint ∉ g.edges.map Prod.fst := alookup_eq_none.mp h2
      refine ⟨?_, ?_, ?_, ?_⟩ <;>
        simp only [h2, Option.getD_none, List.nil_append, List.length_nil,
          ainsert_of_not_mem _ hksrc]
      · simp only [List.map_append, List.map_cons, List.map_nil]
        simp [List.nodup_append, hw.edges_keys_nodup, hksrc]
      · intro s' es' hmem' i hi
        rcases List.mem_append.mp hmem' with hold | hnew
        · show alookup _ (ainsert e.pool_address (e.source_mint, 0) g.pool_index) = _
          rw [alookup_ainsert_ne (hpoolmem s' es' hold i hi) _ _]
          exact hw.index_complete s' es' hold i hi
        · obtain ⟨hs', hes'⟩ := Prod.mk.injEq _ _ _ _ |>.mp (List.mem_singleton.mp hnew)
          subst hs'
          subst hes'
          simp only [List.length_singleton] at hi
          have hieq : i = 0 := by omega
          subst hieq
          simp only [List.getElem_singleton]
          exact alookup_ainsert_self _ _ _
      · intro p s i hlook
        by_cases hp : p = e.pool_address
        · subst hp
          rw [show alookup e.pool_address
              (ainsert e.pool_address (e.source_mint, 0) g.pool_index) =
              some (e.source_mint, 0) from alookup_ainsert_self _ _ _] at hlook
          obtain ⟨hs, hi'⟩ := Prod.mk.injEq _ _ _ _ |>.mp (Option.some_injective _ hlook)
          subst hs
          subst hi'
          exact ⟨[e], List.mem_append.mpr (Or.inr (List.mem_singleton.mpr rfl)),
            by simp, by simp⟩
        · rw [show alookup p (ainsert e.pool_address (e.source_mint, 0) g.pool_index) =
              alookup p g.pool_index from alookup_ainsert_ne hp _ _] at hlook
          obtain ⟨es0, hmem0, hi0, hp0⟩ := hw.index_sound p s i hlook
          exact ⟨es0, List.mem_append.mpr (Or.inl hmem0), hi0, hp0⟩
      · have hcount := hw.count_eq
        simp only [List.map_append, List.map_cons, List.map_nil, List.sum_append,
          List.length_singleton, List.sum_cons, List.sum_nil]
        omega

theorem alookup_foldl_reindex_cases (s : String) (ps : List (ℕ × PoolEdge))
    (pi : List (String × (String × ℕ))) {p : String} {v : String × ℕ}
    (h : alookup p (ps.foldl (fun pi q => ainsert q.2.pool_address (s, q.1) pi) pi) =
      some v) :
    (∃ q ∈ ps, q.2.pool_address = p ∧ v = (s, q.1)) ∨ alookup p pi = some v := by
  induction ps generalizing pi with
  | nil => exact Or.inr h
  | cons q rest ih =>
    rw [List.foldl_cons] at h
    rcases ih _ h with ⟨q', hq', hp', hv'⟩ | h2
    · exact Or.inl ⟨q', List.mem_cons_of_mem _ hq', hp', hv'⟩
    · by_cases hp : q.2.pool_address = p
      · subst hp
        rw [alookup_ainsert_self] at h2
        exact Or.inl ⟨q, List.mem_cons_self _ _, rfl,
          (Option.some_injective _ h2).symm⟩
      · rw [alookup_ainsert_ne (fun hh => hp hh.symm) _ _] at h2
        exact Or.inr h2

theorem alookup_reindexOne_cases (s : String) (es : List PoolEdge)
    (pi : List (String × (String × ℕ))) {p : String} {v : String × ℕ}
    (h : alookup p (reindexOne s es pi) = some v) :
    (∃ j, ∃ hj : j < es.length, es[j].pool_address = p ∧ v = (s, j)) ∨
      alookup p pi = some v := by
  rcases alookup_foldl_reindex_cases s es.enum pi h with ⟨q, hq, hp', hv'⟩ | h2
  · have hqspec := List.mem_enum hq
    refine Or.inl ⟨q.1, hqspec.1, ?_, hv'⟩
    rw [← hqspec.2]
    exact hp'
  · exact Or.inr h2

theorem alookup_foldl_reindexAll_cases (m : ℕ) (l : List (String × List PoolEdge))
    (pi : List (String × (String × ℕ))) {p : String} {v : String × ℕ}
    (h : alookup p (l.foldl
      (fun pi kv => reindexOne kv.1 (kv.2.filter (fun e => !e.is_stale m)) pi) pi) =
      some v) :
    (∃ kv ∈ l, ∃ j, ∃ hj : j < (kv.2.filter (fun e => !e.is_stale m)).length,
      (kv.2.filter (fun e => !e.is_stale m))[j].pool_address = p ∧ v = (kv.1, j)) ∨
      alookup p pi = some v := by
  induction l generalizing pi with
  | nil => exact Or.inr h
  | cons kv rest ih =>
    rw [List.foldl_cons] at h
    rcases ih _ h with ⟨kv', hkv', hrest⟩ | h2
    · exact Or.inl ⟨kv', List.mem_cons_of_mem _ hkv', hrest⟩
    · rcases alookup_reindexOne_cases _ _ _ h2 with ⟨j, hj, hp', hv'⟩ | h3
      · exact Or.inl ⟨kv, List.mem_cons_self _ _, j, hj, hp', hv'⟩
      · exact Or.inr h3

theorem length_filter_add_length_filter_not {α : Type} (l : List α) (P : α → Bool) :
    (l.filter P).length + (l.filter (fun a => !P a)).length = l.length := by
  induction l with
  | nil => rfl
  | cons a rest ih =>
    by_cases h : P a = true <;> simp [List.filter_cons, h] <;> omega

theorem sum_keep_add_sum_stale (m : ℕ) (l : List (String × List PoolEdge)) :
    (l.map (fun kv => (kv.2.filter (fun e => !e.is_stale m)).length)).sum +
      (l.map (fun kv => (kv.2.filter (fun e => e.is_stale m)).length)).sum =
      (l.map (fun kv => kv.2.length)).sum := by
  induction l with
  | nil => rfl
  | cons kv rest ih =>
    simp only [List.map_cons, List.sum_cons]
    have h := length_filter_add_length_filter_not kv.2 (fun e => e.is_stale m)
    omega

theorem sum_lengths_filter_nonempty (l : List (String × List PoolEdge)) :
    ((l.filter (fun kv => !kv.2.isEmpty)).map (fun kv => kv.2.length)).sum =
      (l.map (fun kv => kv.2.length)).sum := by
  induction l with
  | nil => rfl
  | cons kv rest ih =>
    cases hkv : kv.2 with
    | nil => simp [List.filter_cons, hkv, ih]
    | cons x xs => simp [List.filter_cons, hkv, List.isEmpty, ← ih]

/-- In a well-formed graph a stored edge is determined by its pool address. -/
theorem wf_pool_unique_edge {g : HopGraph} (hw : g.WF) {s : String}
    {es : List PoolEdge} (hmem : (s, es) ∈ g.edges) {e : PoolEdge} (he : e ∈ es) :
    ∀ kv ∈ g.edges, ∀ x ∈ kv.2, x.pool_address = e.pool_address →
      kv = (s, es) ∧ x = e := by
  intro kv hkv x hx hpx
  obtain ⟨t, ts⟩ := kv
  obtain ⟨i1, hi1, hget1⟩ := List.mem_iff_getElem.mp hx
  obtain ⟨i2, hi2, hget2⟩ := List.mem_iff_getElem.mp he
  obtain ⟨hs', hi', hes'⟩ := hw.pool_unique hkv hmem hi1 hi2
    (by
      have hq1 := congrArg (fun z => z.pool_address) hget1
      have hq2 := congrArg (fun z => z.pool_address) hget2
      simp only at hq1 hq2
      rw [hq1, hq2]
      exact hpx)
  subst hs'
  subst hes'
  subst hi'
  exact ⟨rfl, hget1.symm.trans hget2⟩

/-- After `prune_stale`, the pool of the `j`-th surviving edge of a source
resolves in the new index to exactly `(source, j)`. -/
theorem prune_keep_pool_lookup {g : HopGraph} (hw : g.WF) (m : ℕ)
    {s : String} {es : List PoolEdge} (hmem : (s, es) ∈ g.edges)
    {j : ℕ} (hj : j < (es.filter (fun e => !e.is_stale m)).length) :
    alookup (es.filter (fun e => !e.is_stale m))[j].pool_address
      ((g.prune_stale m).2).pool_index = some (s, j) := by
  obtain ⟨hent, hrem, hpr, hec, hpi⟩ := prune_foldl_spec m g.edges
    { entries := [], pools_to_remove := [], pruned := 0
      edge_count := g.edge_count, pool_index := g.pool_index }
  have hkeepmem : (es.filter (fun e => !e.is_stale m))[j] ∈
      es.filter (fun e => !e.is_stale m) := List.getElem_mem hj
  have he2 := List.mem_filter.mp hkeepmem
  have hstale : (es.filter (fun e => !e.is_stale m))[j].is_stale m = false := by
    have := he2.2
    simpa using this
  have huniq := wf_pool_unique_edge hw hmem he2.1
  have hnotrem : (es.filter (fun e => !e.is_stale m))[j].pool_address ∉
      (g.edges.foldl (pruneStep m)
        { entries := [], pools_to_remove := [], pruned := 0
          edge_count := g.edge_count, pool_index := g.pool_index }).pools_to_remove := by
    rw [hrem]
    simp only [List.nil_append]
    intro hcon
    obtain ⟨kv, hkv, hmem2⟩ := List.mem_flatMap.mp hcon
    obtain ⟨x, hxf, hpx⟩ := List.mem_map.mp hmem2
    have hx2 := List.mem_filter.mp hxf
    obtain ⟨_, hxe⟩ := huniq kv hkv x hx2.1 hpx
    rw [hxe, hstale] at hx2
    exact Bool.false_ne_true hx2.2
  have hndkeep : ((es.filter (fun e => !e.is_stale m)).map
      (fun e => e.pool_address)).Nodup :=
    ((List.filter_sublist es).map _).nodup (hw.pools_nodup_entry hmem)
  have hlook : alookup (es.filter (fun e => !e.is_stale m))[j].pool_address
      (g.edges.foldl
        (fun pi kv => reindexOne kv.1 (kv.2.filter (fun e => !e.is_stale m)) pi)
        g.pool_index) = some (s, j) := by
    refine alookup_foldl_reindexAll_mem m g.edges g.pool_index hmem hj rfl hndkeep ?_
    intro kv hkv x hxf hpx
    exact (huniq kv hkv x (List.mem_filter.mp hxf).1 hpx).1
  simp only [HopGraph.prune_stale]
  rw [alookup_foldl_aremove, if_neg hnotrem, hpi]
  exact hlook

/-- `prune_stale` preserves well-formedness. -/
theorem HopGraph.WF.prune_stale {g : HopGraph} (hw : g.WF) (m : ℕ) :
    ((g.prune_stale m).2).WF := by
  obtain ⟨hent, hrem, hpr, hec, hpi⟩ := prune_foldl_spec m g.edges
    { entries := [], pools_to_remove := [], pruned := 0
      edge_count := g.edge_count, pool_index := g.pool_index }
  have hkeys : ((g.edges.map (fun kv =>
      (kv.1, kv.2.filter (fun e => !e.is_stale m)))).map Prod.fst) =
      g.edges.map Prod.fst := by
    rw [List.map_map]
    rfl
  refine ⟨?_, ?_, ?_, ?_⟩
  · simp only [HopGraph.prune_stale]
    rw [hent]
    simp only [List.nil_append]
    have hsub := (List.filter_sublist (l := g.edges.map (fun kv =>
      (kv.1, kv.2.filter (fun e => !e.is_stale m))))
        (p := fun kv => !kv.2.isEmpty)).map Prod.fst
    exact hsub.nodup (hkeys ▸ hw.edges_keys_nodup)
  · intro s' ks hmem' i hi
    simp only [HopGraph.prune_stale] at hmem' ⊢
    rw [hent] at hmem'
    simp only [List.nil_append] at hmem'
    have h2 := List.mem_filter.mp hmem'
    obtain ⟨⟨s0, es0⟩, hmem0, heq⟩ := List.mem_map.mp h2.1
    obtain ⟨hs', hks⟩ := Prod.mk.injEq _ _ _ _ |>.mp heq.symm
    subst hs'
    subst hks
    exact prune_keep_pool_lookup hw m hmem0 hi
  · intro p s i hlook
    simp only [HopGraph.prune_stale] at hlook ⊢
    have hlook0 := hlook
    rw [alookup_foldl_aremove] at hlook
    by_cases hp : p ∈ (g.edges.foldl (pruneStep m)
        { entries := [], pools_to_remove := [], pruned := 0
          edge_count := g.edge_count, pool_index := g.pool_index }).pools_to_remove
    · rw [if_pos hp] at hlook
      cases hlook
    · rw [if_neg hp, hpi] at hlook
      rcases alookup_foldl_reindexAll_cases m g.edges g.pool_index hlook with
        ⟨⟨s0, es0⟩, hkv, j, hj, hp', hv'⟩ | h2
      · obtain ⟨hs0, hij⟩ := Prod.mk.injEq _ _ _ _ |>.mp hv'
        subst hs0
        subst hij
        refine ⟨es0.filter (fun e => !e.is_stale m), ?_, hj, hp'⟩
        rw [hent]
        simp only [List.nil_append]
        refine List.mem_filter.mpr ⟨List.mem_map.mpr ⟨(s, es0), hkv, rfl⟩, ?_⟩
        simp only
        cases hfe : es0.filter (fun e => !e.is_stale m) with
        | nil => rw [hfe] at hj; simp at hj
        | cons x xs => rfl
      · obtain ⟨es0, hmem0, hi0, hp0⟩ := hw.index_sound p s i h2
        cases hstale : es0[i].is_stale m with
        | true =>
          exfalso
          refine hp ?_
          rw [hrem]
          simp only [List.nil_append]
          refine List.mem_flatMap.mpr ⟨(s, es0), hmem0, ?_⟩
          refine List.mem_map.mpr ⟨es0[i], List.mem_filter.mpr ⟨List.getElem_mem hi0,
            hstale⟩, hp0⟩
        | false =>
          have hkm : es0[i] ∈ es0.filter (fun e => !e.is_stale m) :=
            List.mem_filter.mpr ⟨List.getElem_mem hi0, by simp [hstale]⟩
          obtain ⟨j, hj, hget⟩ := List.mem_iff_getElem.mp hkm
          have hlookj := prune_keep_pool_lookup hw m hmem0 hj
          have hpj : (es0.filter (fun e => !e.is_stale m))[j].pool_address = p := by
            have := congrArg (fun z => z.pool_address) hget
            simp only at this
            rw [this]
            exact hp0
          rw [hpj] at hlookj
          have hij : i = j := by
            have := hlook0.symm.trans hlookj
            injection this with hinj
            exact ((Prod.mk.injEq _ _ _ _).mp hinj).2
          subst hij
          refine ⟨es0.filter (fun e => !e.is_stale m), ?_, hj, hpj⟩
          rw [hent]
          simp only [List.nil_append]
          refine List.mem_filter.mpr ⟨List.mem_map.mpr ⟨(s, es0), hmem0, rfl⟩, ?_⟩
          simp only
          cases hfe : es0.filter (fun e => !e.is_stale m) with
          | nil => rw [hfe] at hj; simp at hj
          | cons x xs => rfl
  · simp only [HopGraph.prune_stale]
    rw [hec, hent]
    simp only [List.nil_append]
    rw [sum_lengths_filter_nonempty, List.map_map]
    show g.edge_count -
        (g.edges.map (fun kv => (kv.2.filter (fun e => e.is_stale m)).length)).sum =
      (g.edges.map (fun kv => (kv.2.filter (fun e => !e.is_stale m)).length)).sum
    have hks := sum_keep_add_sum_stale m g.edges
    have hc := hw.count_eq
    omega

/-- `clear` preserves well-formedness. -/
theorem HopGraph.WF.clear {g : HopGraph} (_hw : g.WF) : g.clear.WF :=
  wf_new

/-- Graph states reachable through the public mutating API. -/
inductive ReachableGraph : HopGraph → Prop where
  | base : ReachableGraph HopGraph.new
  | update {g : HopGraph} (e : PoolEdge) :
      ReachableGraph g → ReachableGraph (g.update_edge e)
  | pruneStale {g : HopGraph} (m : ℕ) :
      ReachableGraph g → ReachableGraph ((g.prune_stale m).2)
  | clearAll {g : HopGraph} : ReachableGraph g → ReachableGraph g.clear

/-- Every reachable graph state is well-formed, so the hypothesis of
`claim_C7_prune_stale_correct` covers every graph state the program can
produce. -/
theorem reachable_wf {g : HopGraph} (h : ReachableGraph g) : g.WF := by
  induction h with
  | base => exact wf_new
  | update e _ ih => exact ih.update_edge e
  | pruneStale m _ ih => exact ih.prune_stale m
  | clearAll _ ih => exact ih.clear

/-- Edge at slot 1000 (stale at the 1500 threshold). -/
noncomputable def c7e1 : PoolEdge :=
  PoolEdge.new "SOL" "USDC" "POOL1" 100 25 1000000 1000 "RAYDIUM"

/-- Edge at slot 2000 (fresh at the 1500 threshold). -/
noncomputable def c7e2 : PoolEdge :=
  PoolEdge.new "USDC" "BONK" "POOL2" 0.001 30 500000 2000 "ORCA"

/-- Two-edge graph, slots 1000 and 2000. -/
noncomputable def c7graph : HopGraph :=
  (HopGraph.new.update_edge c7e1).update_edge c7e2

/-- Witness for C7: pruning at slot 1500 removes exactly the slot-1000
edge, the counter drops from 2 to 1, the pruned pool no longer resolves,
and the surviving edge still resolves to itself. -/
theorem claim_C7_witness :
    (c7graph.prune_stale 1500).1 = staleCount c7graph 1500 ∧
    (c7graph.prune_stale 1500).2.edge_count + staleCount c7graph 1500 =
      c7graph.edge_count ∧
    (c7graph.prune_stale 1500).2.get_edge "POOL1" = none ∧
    (c7graph.prune_stale 1500).2.get_edge "POOL2" = some c7e2 := by
  have hwf : c7graph.WF := (wf_new.update_edge c7e1).update_edge c7e2
  obtain ⟨h1, h2, h3, h4⟩ := claim_C7_prune_stale_correct c7graph hwf 1500
  refine ⟨h1, h2, ?_, ?_⟩
  · exact h3 "SOL" [c7e1] (List.mem_cons_self _ _) c7e1 (List.mem_cons_self _ _) rfl
  · exact h4 "USDC" [c7e2] (List.mem_cons_of_mem _ (List.mem_cons_self _ _)) c7e2
      (List.mem_cons_self _ _) rfl

/-! ## DFS path invariants (claims C3 and C6) -/

theorem foldl_preserve {α σ : Type} {P : σ → Prop} {Q : α → Prop} (f : σ → α → σ)
    {l : List α} (hl : ∀ a ∈ l, Q a)
    (hstep : ∀ s a, Q a → P s → P (f s a)) :
    ∀ s, P s → P (l.foldl f s) := by
  induction l with
  | nil => exact fun s hs => hs
  | cons a rest ih =>
    intro s hs
    rw [List.foldl_cons]
    exact ih (fun a' ha' => hl a' (List.mem_cons_of_mem _ ha'))
      (f s a) (hstep s a (hl a (List.mem_cons_self _ _)) hs)

theorem foldl_rel {α σ τ : Type} {R : σ → τ → Prop} {Q : α → Prop}
    (f : σ → α → σ) (h : τ → α → τ) {l : List α} (hl : ∀ a ∈ l, Q a)
    (hstep : ∀ s t a, Q a → R s t → R (f s a) (h t a)) :
    ∀ s t, R s t → R (l.foldl f s) (l.foldl h t) := by
  induction l with
  | nil => exact fun s t hst => hst
  | cons a rest ih =>
    intro s t hst
    rw [List.foldl_cons, List.foldl_cons]
    exact ih (fun a' ha' => hl a' (List.mem_cons_of_mem _ ha'))
      (f s a) (h t a) (hstep s t a (hl a (List.mem_cons_self _ _)) hst)

/-- The graph snapshot has an edge `a → b` through pool `pool`. -/
def EdgeMatches (g : HopGraph) (a b pool : String) : Prop :=
  ∃ e, e ∈ g.get_outbound a ∧ e.target_mint = b ∧ e.pool_address = pool

/-- Pool addresses determine the (source, target) pair of a stored edge. -/
def PoolDeterminesPair (g : HopGraph) : Prop :=
  ∀ kv1 ∈ g.edges, ∀ kv2 ∈ g.edges, ∀ e1 ∈ kv1.2, ∀ e2 ∈ kv2.2,
    e1.pool_address = e2.pool_address → kv1.1 = kv2.1 ∧ e1.target_mint = e2.target_mint

/-- No stored edge loops a token back to itself. -/
def NoSelfLoop (g : HopGraph) : Prop :=
  ∀ kv ∈ g.edges, ∀ e ∈ kv.2, e.target_mint ≠ kv.1

/-- Invariant of the in-flight DFS path in both detectors: starts at the
base token, ends at the current token, pools run parallel to path hops and
each hop is a genuine graph edge, and no non-base token repeats. -/
structure DfsInv (g : HopGraph) (start current : String)
    (path pools : List String) : Prop where
  head : path.head? = some start
  last : path.getLast? = some current
  len : path.length = pools.length + 1
  edges : ∀ i, i < pools.length →
    EdgeMatches g (path.getD i "") (path.getD (i + 1) "") (pools.getD i "")
  tokens_unique : ∀ i j, i < path.length → j < path.length →
    path.getD i "" = path.getD j "" → path.getD i "" ≠ start → i = j
  pools_nodup : PoolDeterminesPair g → NoSelfLoop g → pools.Nodup

/-- The per-cycle guarantee shared by both detectors: first = last = base,
the pool list runs parallel to the path, every hop is a genuine edge of
the snapshot with the matching pool, non-base tokens never repeat, and —
when pool addresses determine the traversed (source, target) pair and the
graph has no self-loop edges — no pool repeats. -/
structure GoodCycle (g : HopGraph) (start : String) (path pools : List String)
    (hop_count : ℕ) : Prop where
  head : path.head? = some start
  last : path.getLast? = some start
  len : path.length = pools.length + 1
  hops : hop_count = pools.length
  edges : ∀ i, i < pools.length →
    EdgeMatches g (path.getD i "") (path.getD (i + 1) "") (pools.getD i "")
  tokens_unique : ∀ i j, i < path.length → j < path.length →
    path.getD i "" = path.getD j "" → path.getD i "" ≠ start → i = j
  pools_nodup : PoolDeterminesPair g → NoSelfLoop g → pools.Nodup


theorem out_entry {g : HopGraph} {a : String} {e : PoolEdge}
    (he : e ∈ g.get_outbound a) : ∃ es, (a, es) ∈ g.edges ∧ e ∈ es := by
  unfold HopGraph.get_outbound at he
  cases h : alookup a g.edges with
  | none => rw [h] at he; simp at he
  | some es =>
    rw [h] at he
    exact ⟨es, alookup_mem h, by simpa using he⟩

theorem last_getD {l : List String} {c : String} (h : l.getLast? = some c) :
    l.getD (l.length - 1) "" = c := by
  rw [List.getLast?_eq_getElem?] at h
  simp [List.getD, h]

theorem head_getD {l : List String} {c : String} (h : l.head? = some c) :
    l.getD 0 "" = c := by
  cases l
  · simp at h
  · simpa using h

theorem head?_append_left {l l' : List String} {c : String} (h : l.head? = some c) :
    (l ++ l').head? = some c := by
  cases l
  · simp at h
  · simpa using h

theorem length_pos_of_head? {l : List String} {c : String} (h : l.head? = some c) :
    0 < l.length := by
  cases l
  · simp at h
  · simp

theorem getD_mem_drop_one {l : List String} {i : ℕ} (h1 : 1 ≤ i) (h2 : i < l.length) :
    l.getD i "" ∈ l.drop 1 := by
  cases l with
  | nil => simp at h2
  | cons a tl =>
    simp only [List.drop_one, List.tail_cons]
    have h3 : i - 1 < tl.length := by
      simp only [List.length_cons] at h2
      omega
    have hstep : (a :: tl).getD i "" = tl.getD (i - 1) "" := by
      cases i with
      | zero => omega
      | succ n => simp [List.getD_cons_succ]
    rw [hstep, List.getD_eq_getElem _ _ h3]
    exact List.getElem_mem _

/-- A freshly traversed edge carries a pool address not yet on the path
(given pool-address injectivity and no self-loops). -/
theorem pool_fresh {g : HopGraph} {start current : String} {path pools : List String}
    (h : DfsInv g start current path pools)
    (hpdp : PoolDeterminesPair g) (hsl : NoSelfLoop g)
    {e : PoolEdge} (he : e ∈ g.get_outbound current)
    (hrev : e.target_mint ∈ path.drop 1 → e.target_mint = start) :
    e.pool_address ∉ pools := by
  intro hp
  obtain ⟨i, hi, hpi⟩ := List.mem_iff_getElem.mp hp
  have hpiD : pools.getD i "" = e.pool_address := by
    rw [List.getD_eq_getElem _ _ hi]
    exact hpi
  obtain ⟨ei, hei, hti, hpei⟩ := h.edges i hi
  obtain ⟨es1, hkv1, hmem1⟩ := out_entry hei
  obtain ⟨es2, hkv2, hmem2⟩ := out_entry he
  obtain ⟨hsrc, htgt⟩ := hpdp (path.getD i "", es1) hkv1 (current, es2) hkv2
    ei hmem1 e hmem2 (by rw [hpei, hpiD])
  simp only at hsrc
  have hlen1 : i < path.length := by
    have := h.len
    omega
  have hlen2 : i + 1 < path.length := by
    have := h.len
    omega
  by_cases hts : e.target_mint = start
  · by_cases hcs : current = start
    · exact hsl (current, es2) hkv2 e hmem2 (by rw [hts, hcs])
    · have hlast : path.getD (path.length - 1) "" = current := last_getD h.last
      have hieq := h.tokens_unique i (path.length - 1)
        hlen1 (by have := length_pos_of_head? h.head; omega)
        (by rw [hsrc, hlast]) (by rw [hsrc]; exact hcs)
      have := h.len
      omega
  · have htpos : path.getD (i + 1) "" = e.target_mint := by
      rw [← hti]
      exact htgt
    refine hts (hrev ?_)
    rw [← htpos]
    exact getD_mem_drop_one (by omega) hlen2

/-- Pushing a guard-approved edge extends the DFS invariant. -/
theorem DfsInv.step {g : HopGraph} {start current : String} {path pools : List String}
    (h : DfsInv g start current path pools)
    {e : PoolEdge} (he : e ∈ g.get_outbound current)
    (hrev : e.target_mint ∈ path.drop 1 → e.target_mint = start) :
    DfsInv g start e.target_mint (path ++ [e.target_mint])
      (pools ++ [e.pool_address]) := by
  have hlenp := h.len
  refine ⟨head?_append_left h.head, List.getLast?_concat _, by simp [hlenp], ?_, ?_, ?_⟩
  · intro i hi
    simp only [List.length_append, List.length_singleton] at hi
    by_cases hilt : i < pools.length
    · have h1 : i < path.length := by omega
      have h2 : i + 1 < path.length := by omega
      rw [List.getD_append _ _ _ _ h1, List.getD_append _ _ _ _ h2,
        List.getD_append _ _ _ _ hilt]
      exact h.edges i hilt
    · have hieq : i = pools.length := by omega
      have h1 : i < path.length := by omega
      rw [List.getD_append _ _ _ _ h1]
      have hcur : path.getD i "" = current := by
        have hl := last_getD h.last
        rw [hlenp] at hl
        simpa [hieq] using hl
      rw [hcur]
      have h2 : (path ++ [e.target_mint]).getD (i + 1) "" = e.target_mint := by
        have hip : i + 1 = path.length := by omega
        rw [hip]
        simp [List.getD_append_right]
      have h3 : (pools ++ [e.pool_address]).getD i "" = e.pool_address := by
        rw [hieq]
        simp [List.getD_append_right]
      rw [h2, h3]
      exact ⟨e, he, rfl, rfl⟩
  · intro i j hi hj heq hne
    simp only [List.length_append, List.length_singleton] at hi hj
    by_cases hi' : i < path.length <;> by_cases hj' : j < path.length
    · rw [List.getD_append _ _ _ _ hi', List.getD_append _ _ _ _ hj'] at heq
      rw [List.getD_append _ _ _ _ hi'] at hne
      exact h.tokens_unique i j hi' hj' heq hne
    · exfalso
      have hjeq : j = path.length := by omega
      have hvj : (path ++ [e.target_mint]).getD j "" = e.target_mint := by
        rw [hjeq]
        simp [List.getD_append_right]
      rw [List.getD_append _ _ _ _ hi'] at heq hne
      rw [hvj] at heq
      by_cases hi0 : i = 0
      · rw [hi0, head_getD h.head] at hne
        exact hne rfl
      · have hdropmem : path.getD i "" ∈ path.drop 1 :=
          getD_mem_drop_one (by omega) hi'
        rw [heq] at hdropmem
        exact hne (heq.trans (hrev hdropmem))
    · exfalso
      have hieq : i = path.length := by omega
      have hvi : (path ++ [e.target_mint]).getD i "" = e.target_mint := by
        rw [hieq]
        simp [List.getD_append_right]
      rw [hvi] at heq hne
      rw [List.getD_append _ _ _ _ hj'] at heq
      by_cases hj0 : j = 0
      · rw [hj0, head_getD h.head] at heq
        exact hne heq
      · have hdropmem : path.getD j "" ∈ path.drop 1 :=
          getD_mem_drop_one (by omega) hj'
        rw [← heq] at hdropmem
        exact hne (hrev hdropmem)
    · omega
  · intro hpdp hsl
    have hfresh := pool_fresh h hpdp hsl he hrev
    have hnd := h.pools_nodup hpdp hsl
    simp only [List.nodup_append, List.nodup_cons, List.nodup_nil, and_true,
      List.not_mem_nil, not_false_iff, List.disjoint_singleton]
    exact ⟨hnd, trivial, fun hc => hfresh hc⟩

/-- The invariant holds for the two-node path created from an initial edge. -/
theorem DfsInv.init {g : HopGraph} {start : String} {e : PoolEdge}
    (he : e ∈ g.get_outbound start) :
    DfsInv g start e.target_mint [start, e.target_mint] [e.pool_address] := by
  refine ⟨rfl, rfl, rfl, ?_, ?_, ?_⟩
  · intro i hi
    simp only [List.length_cons, List.length_nil] at hi
    interval_cases i
    exact ⟨e, he, rfl, rfl⟩
  · intro i j hi hj heq hne
    simp only [List.length_cons, List.length_nil] at hi hj
    interval_cases i <;> interval_cases j <;> simp_all
  · intro _ _
    simp

/-- Closing an edge back to the base token yields a good cycle. -/
theorem DfsInv.emit {g : HopGraph} {start current : String} {path pools : List String}
    (h : DfsInv g start current path pools)
    {e : PoolEdge} (he : e ∈ g.get_outbound current)
    (hrev : e.target_mint ∈ path.drop 1 → e.target_mint = start)
    (hts : e.target_mint = start) :
    GoodCycle g start (path ++ [start]) (pools ++ [e.pool_address])
      (pools.length + 1) := by
  have h2 := h.step he hrev
  rw [hts] at h2
  exact ⟨h2.head, h2.last, h2.len, by simp, h2.edges, h2.tokens_unique, h2.pools_nodup⟩

/-- Every cycle emitted by `dfs_find_cycles` from an invariant-satisfying
state is a good cycle. -/
theorem dfs_find_cycles_good (finder : CycleFinder) (g : HopGraph) :
    ∀ (fuel : ℕ) (start current : String) (path pools : List String)
      (w : EReal) (liq fees depth : ℕ),
    DfsInv g start current path pools → depth = pools.length →
    ∀ c ∈ dfs_find_cycles finder g fuel start current path pools w liq fees depth,
      GoodCycle g start c.path c.pool_addresses c.hop_count := by
  intro fuel
  induction fuel with
  | zero =>
    intro start current path pools w liq fees depth _ _ c hc
    simp [dfs_find_cycles] at hc
  | succ fuel ih =>
    intro start current path pools w liq fees depth hinv hdep c hc
    rw [dfs_find_cycles] at hc
    refine foldl_preserve
      (P := fun s : List HopCycle =>
        ∀ c ∈ s, GoodCycle g start c.path c.pool_addresses c.hop_count)
      (Q := fun e : PoolEdge => e ∈ g.get_outbound current)
      _ (fun e he => he) ?_ [] (fun c hc => absurd hc (List.not_mem_nil c)) c hc
    intro results edge hedge hres c2 hc2
    simp only [] at hc2
    by_cases h1 : edge.liquidity_usd < finder.min_liquidity_usd
    · rw [if_pos h1] at hc2
      exact hres _ hc2
    · rw [if_neg h1] at hc2
      by_cases h2 : edge.target_mint ∈ path.drop 1 ∧ edge.target_mint ≠ start
      · rw [if_pos h2] at hc2
        exact hres _ hc2
      · rw [if_neg h2] at hc2
        have hrev : edge.target_mint ∈ path.drop 1 → edge.target_mint = start := by
          intro hmem
          by_contra hne
          exact h2 ⟨hmem, hne⟩
        by_cases h3 : edge.target_mint = start ∧ 2 ≤ depth
        · rw [if_pos h3] at hc2
          by_cases h4 : finder.min_profit_threshold * 100 ≤ profitPct (w + edge.weight)
          · rw [if_pos h4] at hc2
            rcases List.mem_append.mp hc2 with hold | hnew
            · exact hres _ hold
            · have hceq := List.mem_singleton.mp hnew
              subst hceq
              show GoodCycle g start (path ++ [start]) (pools ++ [edge.pool_address])
                (depth + 1)
              rw [hdep]
              exact hinv.emit hedge hrev h3.1
          · rw [if_neg h4] at hc2
            exact hres _ hc2
        · rw [if_neg h3] at hc2
          by_cases h5 : depth < finder.max_hops - 1
          · rw [if_pos h5] at hc2
            rcases List.mem_append.mp hc2 with hold | hrec
            · exact hres _ hold
            · exact ih start edge.target_mint _ _ _ _ _ _
                (hinv.step hedge hrev) (by simp [hdep]) c2 hrec
          · rw [if_neg h5] at hc2
            exact hres _ hc2

/-- Every cycle returned by `CycleFinder::find_cycles` is a good cycle. -/
theorem find_cycles_good (finder : CycleFinder) (g : HopGraph) (start : String) :
    ∀ c ∈ finder.find_cycles g start,
      GoodCycle g start c.path c.pool_addresses c.hop_count := by
  intro c hc
  rw [CycleFinder.find_cycles] at hc
  by_cases hmem : ¬ start ∈ g.nodes
  · rw [if_pos hmem] at hc
    simp at hc
  · rw [if_neg hmem] at hc
    simp only [] at hc
    have hc2 := (List.mergeSort_perm _ _).mem_iff.mp hc
    refine foldl_preserve
      (P := fun s : List HopCycle =>
        ∀ c ∈ s, GoodCycle g start c.path c.pool_addresses c.hop_count)
      (Q := fun e : PoolEdge => e ∈ g.get_outbound start)
      _ (fun e he => he) ?_ [] (fun c hc => absurd hc (List.not_mem_nil c)) c hc2
    intro cycles edge hedge hcy c2 hcm
    by_cases h1 : edge.liquidity_usd < finder.min_liquidity_usd
    · rw [if_pos h1] at hcm
      exact hcy _ hcm
    · rw [if_neg h1] at hcm
      rcases List.mem_append.mp hcm with hold | hdfs
      · exact hcy _ hold
      · exact dfs_find_cycles_good finder g finder.max_hops start edge.target_mint
          _ _ _ _ _ 1 (DfsInv.init hedge) rfl c2 hdfs

/-- Every cycle emitted by the memoized `dfs_exact_hops` from an
invariant-satisfying state is a good cycle. -/
theorem dfs_exact_hops_good (s : MultiverseScanner) (g : HopGraph) :
    ∀ (fuel : ℕ) (start current : String) (path pools dexes : List String)
      (w : EReal) (liq fees depth target : ℕ) (minp : ℝ) (memo : Memo),
    DfsInv g start current path pools → depth = pools.length →
    ∀ c ∈ (dfs_exact_hops s g fuel start current path pools dexes
        w liq fees depth target minp memo).1,
      GoodCycle g start c.path c.pool_addresses c.hop_count := by
  intro fuel
  induction fuel with
  | zero =>
    intro start current path pools dexes w liq fees depth target minp memo _ _ c hc
    simp [dfs_exact_hops] at hc
  | succ fuel ih =>
    intro start current path pools dexes w liq fees depth target minp memo hinv hdep c hc
    rw [dfs_exact_hops] at hc
    by_cases hm : (match alookup (start, current, depth) memo with
       | some cached => cached < w
       | none => False)
    · rw [if_pos hm] at hc
      simp at hc
    · rw [if_neg hm] at hc
      simp only [] at hc
      refine foldl_preserve
        (P := fun st : List MultiverseCycle × Memo =>
          ∀ c ∈ st.1, GoodCycle g start c.path c.pool_addresses c.hop_count)
        (Q := fun e : PoolEdge => e ∈ g.get_outbound current)
        _ (fun e he => he) ?_ ([], ainsert (start, current, depth) w memo)
        (fun c hc => absurd hc (List.not_mem_nil c)) c hc
      intro st edge hedge hst c2 hc2
      simp only [] at hc2
      by_cases h1 : edge.liquidity_usd < s.min_liquidity_usd
      · rw [if_pos h1] at hc2
        exact hst _ hc2
      · rw [if_neg h1] at hc2
        by_cases h2 : edge.target_mint ∈ path.drop 1 ∧ edge.target_mint ≠ start
        · rw [if_pos h2] at hc2
          exact hst _ hc2
        · rw [if_neg h2] at hc2
          have hrev : edge.target_mint ∈ path.drop 1 → edge.target_mint = start := by
            intro hmem
            by_contra hne
            exact h2 ⟨hmem, hne⟩
          by_cases h3 : edge.target_mint = start ∧ depth + 1 = target
          · rw [if_pos h3] at hc2
            by_cases h4 : minp * 100 ≤ profitPct (w + edge.weight)
            · rw [if_pos h4] at hc2
              rcases List.mem_append.mp hc2 with hold | hnew
              · exact hst _ hold
              · have hceq := List.mem_singleton.mp hnew
                subst hceq
                show GoodCycle g start (path ++ [start]) (pools ++ [edge.pool_address])
                  (depth + 1)
                rw [hdep]
                exact hinv.emit hedge hrev h3.1
            · rw [if_neg h4] at hc2
              exact hst _ hc2
          · rw [if_neg h3] at hc2
            by_cases h5 : depth < target - 1
            · rw [if_pos h5] at hc2
              by_cases h6 : (0 : EReal) < w + edge.weight +
                  (((-3/1000 : ℝ) * ((target - depth - 1 : ℕ) : ℝ) : ℝ) : EReal)
              · rw [if_pos h6] at hc2
                exact hst _ hc2
              · rw [if_neg h6] at hc2
                rcases List.mem_append.mp hc2 with hold | hrec
                · exact hst _ hold
                · exact ih start edge.target_mint _ _ _ _ _ _ _ target minp _
                    (hinv.step hedge hrev) (by simp [hdep]) c2 hrec
            · rw [if_neg h5] at hc2
              exact hst _ hc2

/-- Every cycle returned at one hop level of the multiverse scan is a good
cycle. -/
theorem find_cycles_at_level_good (s : MultiverseScanner) (g : HopGraph)
    (start : String) (target : ℕ) (minp : ℝ) (memo : Memo) :
    ∀ c ∈ (find_cycles_at_level s g start target minp memo).1,
      GoodCycle g start c.path c.pool_addresses c.hop_count := by
  intro c hc
  rw [find_cycles_at_level] at hc
  simp only [] at hc
  have hc2 := List.take_subset _ _ hc
  have hc3 := (List.mergeSort_perm _ _).mem_iff.mp hc2
  refine foldl_preserve
    (P := fun st : List MultiverseCycle × Memo =>
      ∀ c ∈ st.1, GoodCycle g start c.path c.pool_addresses c.hop_count)
    (Q := fun e : PoolEdge => e ∈ g.get_outbound start)
    _ (fun e he => he) ?_ ([], memo)
    (fun c hc => absurd hc (List.not_mem_nil c)) c hc3
  intro st edge hedge hst c2 hc2
  simp only [] at hc2
  by_cases h1 : edge.liquidity_usd < s.min_liquidity_usd
  · rw [if_pos h1] at hc2
    exact hst _ hc2
  · rw [if_neg h1] at hc2
    rcases List.mem_append.mp hc2 with hold | hdfs
    · exact hst _ hold
    · exact dfs_exact_hops_good s g target start edge.target_mint _ _ _ _ _ _ 1
        target minp _ (DfsInv.init hedge) rfl c2 hdfs

/-- Every cycle in any level of `scan_multiverse`'s result is a good
cycle. -/
theorem scan_multiverse_good (s : MultiverseScanner) (g : HopGraph) (start : String) :
    ∀ kv ∈ (s.scan_multiverse g start).cycles_by_hops, ∀ c ∈ kv.2,
      GoodCycle g start c.path c.pool_addresses c.hop_count := by
  intro kv hkv
  rw [MultiverseScanner.scan_multiverse] at hkv
  by_cases hmem : ¬ start ∈ g.nodes
  · rw [if_pos hmem] at hkv
    simp at hkv
  · rw [if_neg hmem] at hkv
    simp only [] at hkv
    refine foldl_preserve
      (P := fun st : List (ℕ × List MultiverseCycle) × Memo =>
        ∀ kv ∈ st.1, ∀ c ∈ kv.2,
          GoodCycle g start c.path c.pool_addresses c.hop_count)
      (Q := fun _ : ℕ => True)
      _ (fun _ _ => trivial) ?_ ([], [])
      (fun kv hkv => absurd hkv (List.not_mem_nil kv)) kv hkv
    intro st hop _ hst kv2 hkv2
    simp only [] at hkv2
    split at hkv2
    · exact hst _ hkv2
    · rcases List.mem_append.mp hkv2 with hold | hnew
      · exact hst _ hold
      · have hkeq := List.mem_singleton.mp hnew
        subst hkeq
        intro c2 hc2
        exact find_cycles_at_level_good s g start hop _ st.2 c2 hc2

/-- Claim C6: every cycle returned by either detector, read against the
scanned graph snapshot, has first = last token, pool list length = path
length - 1 = hop count, and every consecutive token pair backed by a graph
edge carrying the listed pool address. -/
theorem claim_C6_cycle_path_validity (finder : CycleFinder) (s : MultiverseScanner)
    (g : HopGraph) (start : String) :
    (∀ c ∈ finder.find_cycles g start,
      c.path.head? = c.path.getLast? ∧
      c.pool_addresses.length = c.path.length - 1 ∧
      c.path.length - 1 = c.hop_count ∧
      ∀ i < c.pool_addresses.length,
        EdgeMatches g (c.path.getD i "") (c.path.getD (i + 1) "")
          (c.pool_addresses.getD i "")) ∧
    (∀ kv ∈ (s.scan_multiverse g start).cycles_by_hops, ∀ c ∈ kv.2,
      c.path.head? = c.path.getLast? ∧
      c.pool_addresses.length = c.path.length - 1 ∧
      c.path.length - 1 = c.hop_count ∧
      ∀ i < c.pool_addresses.length,
        EdgeMatches g (c.path.getD i "") (c.path.getD (i + 1) "")
          (c.pool_addresses.getD i "")) := by
  constructor
  · intro c hc
    have hgc := find_cycles_good finder g start c hc
    refine ⟨hgc.head.trans hgc.last.symm, ?_, ?_, fun i hi => hgc.edges i hi⟩
    · have := hgc.len
      omega
    · have h1 := hgc.len
      have h2 := hgc.hops
      omega
  · intro kv hkv c hc
    have hgc := scan_multiverse_good s g start kv hkv c hc
    refine ⟨hgc.head.trans hgc.last.symm, ?_, ?_, fun i hi => hgc.edges i hi⟩
    · have := hgc.len
      omega
    · have h1 := hgc.len
      have h2 := hgc.hops
      omega

/-! ## Concrete graphs for the DFS claims -/

theorem profitPct_zero : profitPct (0 : EReal) = 0 := by
  have h0 : (0 : EReal) ≠ ⊤ := by
    simp
  simp [profitPct, expNeg, h0, EReal.toReal_zero, Real.exp_zero]

theorem profitPct_neg_coe (x : ℝ) :
    profitPct (-((x : ℝ) : EReal)) = (Real.exp x - 1) * 100 := by
  rw [show -((x : ℝ) : EReal) = ((-x : ℝ) : EReal) by rw [← EReal.coe_neg]]
  simp [profitPct, expNeg, EReal.coe_ne_top, EReal.toReal_coe]

noncomputable def c6e1 : PoolEdge :=
  { source_mint := "S"
    target_mint := "A"
    pool_address := "P1"
    exchange_rate := 1
    weight := ((0 : ℝ) : EReal)
    fee_bps := 0
    liquidity_usd := 1000000
    last_update_slot := 0
    dex := "orca" }

noncomputable def c6e2 : PoolEdge :=
  { source_mint := "A"
    target_mint := "B"
    pool_address := "P2"
    exchange_rate := 1
    weight := ((0 : ℝ) : EReal)
    fee_bps := 0
    liquidity_usd := 1000000
    last_update_slot := 0
    dex := "orca" }

noncomputable def c6e3 : PoolEdge :=
  { source_mint := "B"
    target_mint := "S"
    pool_address := "P3"
    exchange_rate := 1
    weight := ((0 : ℝ) : EReal)
    fee_bps := 0
    liquidity_usd := 1000000
    last_update_slot := 0
    dex := "orca" }

noncomputable def c6graph : HopGraph :=
  { edges := [("S", [c6e1]), ("A", [c6e2]), ("B", [c6e3])]
    pool_index := [("P1", ("S", 0)), ("P2", ("A", 0)), ("P3", ("B", 0))]
    nodes := ["S", "A", "B"]
    edge_count := 3 }

noncomputable def c6finder : CycleFinder := CycleFinder.new 3 0 1000

noncomputable def c6cycle : HopCycle :=
  { path := ["S", "A", "B", "S"]
    pool_addresses := ["P1", "P2", "P3"]
    theoretical_profit_pct := 0
    min_liquidity_usd := 1000000
    total_fee_bps := 0
    hop_count := 3
    total_weight := (0 : EReal) }

theorem c6out_S : c6graph.get_outbound "S" = [c6e1] := by
  simp [HopGraph.get_outbound, c6graph, alookup]

theorem c6out_A : c6graph.get_outbound "A" = [c6e2] := by
  simp [HopGraph.get_outbound, c6graph, alookup]

theorem c6out_B : c6graph.get_outbound "B" = [c6e3] := by
  simp [HopGraph.get_outbound, c6graph, alookup]

theorem c6eval : c6finder.find_cycles c6graph "S" = [c6cycle] := by
  rw [CycleFinder.find_cycles, if_neg (by simp [c6graph])]
  simp only [c6out_S, c6out_A, c6out_B, List.foldl_cons, List.foldl_nil,
    dfs_find_cycles]
  simp [c6e1, c6e2, c6e3, c6finder, CycleFinder.new, c6out_S, c6out_A, c6out_B,
    profitPct_zero, min_self, c6cycle]

/-- Witness for claim C6: the triangle graph S to A to B to S returns one
cycle, and the validity theorem instantiates on it. -/
theorem claim_C6_witness :
    c6cycle.path.head? = c6cycle.path.getLast? ∧
    c6cycle.pool_addresses.length = c6cycle.path.length - 1 ∧
    c6cycle.path.length - 1 = c6cycle.hop_count ∧
    EdgeMatches c6graph (c6cycle.path.getD 0 "") (c6cycle.path.getD 1 "")
      (c6cycle.pool_addresses.getD 0 "") := by
  have h := (claim_C6_cycle_path_validity c6finder (MultiverseScanner.new 2 5 0 50)
    c6graph "S").1 c6cycle (by rw [c6eval]; exact List.mem_singleton.mpr rfl)
  exact ⟨h.1, h.2.1, h.2.2.1, h.2.2.2 0 (by simp [c6cycle])⟩

noncomputable def c3eSA : PoolEdge :=
  { source_mint := "S"
    target_mint := "A"
    pool_address := "PA"
    exchange_rate := 1
    weight := ((0 : ℝ) : EReal)
    fee_bps := 0
    liquidity_usd := 1000000
    last_update_slot := 0
    dex := "orca" }

noncomputable def c3eAS : PoolEdge :=
  { source_mint := "A"
    target_mint := "S"
    pool_address := "PA2"
    exchange_rate := 1
    weight := ((0 : ℝ) : EReal)
    fee_bps := 0
    liquidity_usd := 1000000
    last_update_slot := 0
    dex := "orca" }

noncomputable def c3eSB : PoolEdge :=
  { source_mint := "S"
    target_mint := "B"
    pool_address := "PB"
    exchange_rate := 1
    weight := ((0 : ℝ) : EReal)
    fee_bps := 0
    liquidity_usd := 1000000
    last_update_slot := 0
    dex := "orca" }

noncomputable def c3eBS : PoolEdge :=
  { source_mint := "B"
    target_mint := "S"
    pool_address := "PB2"
    exchange_rate := 1
    weight := ((0 : ℝ) : EReal)
    fee_bps := 0
    liquidity_usd := 1000000
    last_update_slot := 0
    dex := "orca" }

noncomputable def c3graph : HopGraph :=
  { edges := [("S", [c3eSA, c3eSB]), ("A", [c3eAS]), ("B", [c3eBS])]
    pool_index := [("PA", ("S", 0)), ("PB", ("S", 1)), ("PA2", ("A", 0)), ("PB2", ("B", 0))]
    nodes := ["S", "A", "B"]
    edge_count := 4 }

noncomputable def c3finder : CycleFinder := CycleFinder.new 4 0 1000

noncomputable def c3bad : HopCycle :=
  { path := ["S", "A", "S", "B", "S"]
    pool_addresses := ["PA", "PA2", "PB", "PB2"]
    theoretical_profit_pct := 0
    min_liquidity_usd := 1000000
    total_fee_bps := 0
    hop_count := 4
    total_weight := (0 : EReal) }

noncomputable def c3bad2 : HopCycle :=
  { path := ["S", "B", "S", "A", "S"]
    pool_addresses := ["PB", "PB2", "PA", "PA2"]
    theoretical_profit_pct := 0
    min_liquidity_usd := 1000000
    total_fee_bps := 0
    hop_count := 4
    total_weight := (0 : EReal) }

theorem c3out_S : c3graph.get_outbound "S" = [c3eSA, c3eSB] := by
  simp [HopGraph.get_outbound, c3graph, alookup]

theorem c3out_A : c3graph.get_outbound "A" = [c3eAS] := by
  simp [HopGraph.get_outbound, c3graph, alookup]

theorem c3out_B : c3graph.get_outbound "B" = [c3eBS] := by
  simp [HopGraph.get_outbound, c3graph, alookup]

theorem c3eval : c3finder.find_cycles c3graph "S" =
    ([c3bad, c3bad2]).mergeSort
      (fun a b => decide (b.theoretical_profit_pct ≤ a.theoretical_profit_pct)) := by
  rw [CycleFinder.find_cycles, if_neg (by simp [c3graph])]
  simp only [c3out_S, c3out_A, c3out_B, List.foldl_cons, List.foldl_nil,
    dfs_find_cycles]
  simp [c3eSA, c3eAS, c3eSB, c3eBS, c3finder, CycleFinder.new,
    c3out_S, c3out_A, c3out_B, profitPct_zero, min_self, c3bad, c3bad2]

theorem c3mem : c3bad ∈ c3finder.find_cycles c3graph "S" := by
  rw [c3eval]
  exact (List.mergeSort_perm _ _).mem_iff.mpr (by simp)

theorem c3pdp : PoolDeterminesPair c3graph := by
  unfold PoolDeterminesPair
  decide

theorem c3nsl : NoSelfLoop c3graph := by
  unfold NoSelfLoop
  decide

/-- Claim C3 is refuted: on the two-lobe graph S-A and S-B the finder
returns a cycle whose path carries the base token S at interior position 2,
so the base token does not appear only at the two ends. -/
theorem claim_C3_counterexample :
    c3bad ∈ c3finder.find_cycles c3graph "S" ∧
    c3bad.path.getD 0 "" = "S" ∧
    c3bad.path.getD (c3bad.path.length - 1) "" = "S" ∧
    c3bad.path.getD 2 "" = "S" ∧ 2 < c3bad.path.length - 1 := by
  refine ⟨c3mem, ?_, ?_, ?_, ?_⟩ <;> simp [c3bad]

/-- Claim C3 (amended): every returned cycle starts and ends at the base
token, no non-base token occupies two positions of the path, and — when
pool addresses determine the traversed (source, target) pair and no edge
is a self-loop — no pool address repeats. The base token may however
reappear strictly inside the path. -/
theorem claim_C3_amended (finder : CycleFinder) (s : MultiverseScanner)
    (g : HopGraph) (start : String)
    (hpdp : PoolDeterminesPair g) (hsl : NoSelfLoop g) :
    (∀ c ∈ finder.find_cycles g start,
      c.path.head? = some start ∧ c.path.getLast? = some start ∧
      (∀ i j, i < c.path.length → j < c.path.length →
        c.path.getD i "" = c.path.getD j "" → c.path.getD i "" ≠ start → i = j) ∧
      c.pool_addresses.Nodup) ∧
    (∀ kv ∈ (s.scan_multiverse g start).cycles_by_hops, ∀ c ∈ kv.2,
      c.path.head? = some start ∧ c.path.getLast? = some start ∧
      (∀ i j, i < c.path.length → j < c.path.length →
        c.path.getD i "" = c.path.getD j "" → c.path.getD i "" ≠ start → i = j) ∧
      c.pool_addresses.Nodup) := by
  constructor
  · intro c hc
    have hgc := find_cycles_good finder g start c hc
    exact ⟨hgc.head, hgc.last, hgc.tokens_unique, hgc.pools_nodup hpdp hsl⟩
  · intro kv hkv c hc
    have hgc := scan_multiverse_good s g start kv hkv c hc
    exact ⟨hgc.head, hgc.last, hgc.tokens_unique, hgc.pools_nodup hpdp hsl⟩

/-- Witness for the amended claim C3, on the same graph that refutes the
original wording: the non-simple returned cycle still has distinct pools
and base ends. -/
theorem claim_C3_witness :
    c3bad.path.head? = some "S" ∧ c3bad.path.getLast? = some "S" ∧
    c3bad.pool_addresses.Nodup := by
  have h := (claim_C3_amended c3finder (MultiverseScanner.new 2 5 0 50) c3graph "S"
    c3pdp c3nsl).1 c3bad c3mem
  exact ⟨h.1, h.2.1, h.2.2.2⟩

/-! ## Claim C4: memoization as a refinement -/

/-- All cycles of a scan result, across levels. -/
def MultiverseResult.all_cycles (r : MultiverseResult) : List MultiverseCycle :=
  r.cycles_by_hops.foldr (fun kv acc => kv.2 ++ acc) []

noncomputable def mvScanner22 : MultiverseScanner := MultiverseScanner.new 2 2 5000 50

theorem mv22_min_hops : mvScanner22.min_hops = 2 := by
  simp [mvScanner22, MultiverseScanner.new]

theorem mv22_max_hops : mvScanner22.max_hops = 2 := by
  simp [mvScanner22, MultiverseScanner.new]

theorem mv22_liq : mvScanner22.min_liquidity_usd = 5000 := by
  simp [mvScanner22, MultiverseScanner.new]

theorem mv22_maxcyc : mvScanner22.max_cycles_per_level = 50 := by
  simp [mvScanner22, MultiverseScanner.new]

theorem mv22_thresh : (alookup 2 mvScanner22.min_profit_thresholds).getD 0.10 = (0.20 : ℝ) := by
  simp [mvScanner22, MultiverseScanner.new, alookup]

noncomputable def c4eP1 : PoolEdge :=
  { source_mint := "S"
    target_mint := "A"
    pool_address := "P1"
    exchange_rate := Real.exp 2
    weight := ((-2 : ℝ) : EReal)
    fee_bps := 0
    liquidity_usd := 1000000
    last_update_slot := 0
    dex := "orca" }

noncomputable def c4eP2 : PoolEdge :=
  { source_mint := "S"
    target_mint := "A"
    pool_address := "P2"
    exchange_rate := Real.exp 1
    weight := ((-1 : ℝ) : EReal)
    fee_bps := 0
    liquidity_usd := 1000000
    last_update_slot := 0
    dex := "orca" }

noncomputable def c4eP3 : PoolEdge :=
  { source_mint := "A"
    target_mint := "S"
    pool_address := "P3"
    exchange_rate := Real.exp 1
    weight := ((-1 : ℝ) : EReal)
    fee_bps := 0
    liquidity_usd := 1000000
    last_update_slot := 0
    dex := "orca" }

noncomputable def c4graph : HopGraph :=
  { edges := [("S", [c4eP1, c4eP2]), ("A", [c4eP3])]
    pool_index := [("P1", ("S", 0)), ("P2", ("S", 1)), ("P3", ("A", 0))]
    nodes := ["S", "A"]
    edge_count := 3 }

theorem c4out_S : c4graph.get_outbound "S" = [c4eP1, c4eP2] := by
  simp [HopGraph.get_outbound, c4graph, alookup]

theorem c4out_A : c4graph.get_outbound "A" = [c4eP3] := by
  simp [HopGraph.get_outbound, c4graph, alookup]

theorem c4sum1 : -((2 : ℝ) : EReal) + (-1 : EReal) = -((3 : ℝ) : EReal) := by
  rw [show (-1 : EReal) = ((-1 : ℝ) : EReal) by norm_num,
    show -((2 : ℝ) : EReal) = ((-2 : ℝ) : EReal) by rw [← EReal.coe_neg],
    show -((3 : ℝ) : EReal) = ((-3 : ℝ) : EReal) by rw [← EReal.coe_neg],
    ← EReal.coe_add]
  norm_num

theorem c4sum2 : (-1 : EReal) + (-1 : EReal) = -((2 : ℝ) : EReal) := by
  rw [show (-1 : EReal) = ((-1 : ℝ) : EReal) by norm_num,
    show -((2 : ℝ) : EReal) = ((-2 : ℝ) : EReal) by rw [← EReal.coe_neg],
    ← EReal.coe_add]
  norm_num

theorem c4prof1 : (0.20 : ℝ) * 100 ≤ profitPct (-((3 : ℝ) : EReal)) := by
  rw [profitPct_neg_coe]
  nlinarith [Real.add_one_le_exp (3 : ℝ)]

theorem c4prof2 : (0.20 : ℝ) * 100 ≤ profitPct (-((2 : ℝ) : EReal)) := by
  rw [profitPct_neg_coe]
  nlinarith [Real.add_one_le_exp (2 : ℝ)]

theorem c4lt : -((2 : ℝ) : EReal) < (-1 : EReal) := by
  rw [show (-1 : EReal) = ((-1 : ℝ) : EReal) by norm_num,
    show -((2 : ℝ) : EReal) = ((-2 : ℝ) : EReal) by rw [← EReal.coe_neg]]
  rw [EReal.coe_lt_coe_iff]
  norm_num

theorem c4lt2 : (1 : EReal) < ((2 : ℝ) : EReal) := by
  rw [show (1 : EReal) = ((1 : ℝ) : EReal) by norm_num, EReal.coe_lt_coe_iff]
  norm_num

noncomputable def c4cycle1 : MultiverseCycle :=
  { path := ["S", "A", "S"]
    pool_addresses := ["P1", "P3"]
    hop_count := 2
    profit_pct := profitPct (-((3 : ℝ) : EReal))
    min_liquidity_usd := 1000000
    total_fee_bps := 0
    dexes := ["orca", "orca"]
    estimated_gas_lamports := 800000 }

noncomputable def c4cycle2 : MultiverseCycle :=
  { path := ["S", "A", "S"]
    pool_addresses := ["P2", "P3"]
    hop_count := 2
    profit_pct := profitPct (-((2 : ℝ) : EReal))
    min_liquidity_usd := 1000000
    total_fee_bps := 0
    dexes := ["orca", "orca"]
    estimated_gas_lamports := 800000 }

theorem c4memo_eval :
    (find_cycles_at_level mvScanner22 c4graph "S" 2 (0.20 : ℝ) []).1 = [c4cycle1] := by
  rw [find_cycles_at_level]
  simp only [c4out_S, c4out_A, List.foldl_cons, List.foldl_nil, dfs_exact_hops]
  simp [c4eP1, c4eP2, c4eP3, mv22_liq, mv22_maxcyc, alookup, ainsert,
    c4out_S, c4out_A, c4sum1, c4sum2, c4prof1, c4prof2, c4lt, c4lt2, c4cycle1, min_self,
    List.mergeSort_singleton, List.take_of_length_le]

theorem c4nomemo_eval :
    find_cycles_at_level_nomemo mvScanner22 c4graph "S" 2 (0.20 : ℝ) =
      (([c4cycle1, c4cycle2]).mergeSort
        (fun a b => decide (b.profit_pct ≤ a.profit_pct))).take 50 := by
  rw [find_cycles_at_level_nomemo]
  simp only [c4out_S, c4out_A, List.foldl_cons, List.foldl_nil, dfs_exact_hops_nomemo]
  simp [c4eP1, c4eP2, c4eP3, mv22_liq, mv22_maxcyc, alookup,
    c4out_S, c4out_A, c4sum1, c4sum2, c4prof1, c4prof2, c4cycle1, c4cycle2, min_self]

theorem c4nomemo_ne :
    find_cycles_at_level_nomemo mvScanner22 c4graph "S" 2 (0.20 : ℝ) ≠ [] := by
  rw [c4nomemo_eval, List.take_of_length_le (by rw [List.length_mergeSort]; norm_num)]
  intro h
  have hL := congrArg List.length h
  rw [List.length_mergeSort] at hL
  simp at hL

theorem c4scan_memo :
    (mvScanner22.scan_multiverse c4graph "S").cycles_by_hops = [(2, [c4cycle1])] := by
  rw [MultiverseScanner.scan_multiverse, if_neg (by simp [c4graph])]
  simp only [mv22_min_hops, mv22_max_hops]
  simp [List.range_succ, mv22_thresh, c4memo_eval]

theorem c4scan_nomemo :
    (mvScanner22.scan_multiverse_nomemo c4graph "S").cycles_by_hops =
      [(2, find_cycles_at_level_nomemo mvScanner22 c4graph "S" 2 (0.20 : ℝ))] := by
  rw [MultiverseScanner.scan_multiverse_nomemo, if_neg (by simp [c4graph])]
  simp only [mv22_min_hops, mv22_max_hops]
  simp [List.range_succ, mv22_thresh, c4nomemo_ne]

/-- Claim C4 is refuted as an equality: with two parallel S-to-A pools of
different cost, the cheaper-first memo entry prunes the second branch and
its distinct cycle through pool P2, which the memo-free search returns. -/
theorem claim_C4_counterexample :
    c4cycle2 ∈ (mvScanner22.scan_multiverse_nomemo c4graph "S").all_cycles ∧
    c4cycle2 ∉ (mvScanner22.scan_multiverse c4graph "S").all_cycles := by
  constructor
  · rw [MultiverseResult.all_cycles, c4scan_nomemo]
    simp only [List.foldr_cons, List.foldr_nil, List.append_nil]
    rw [c4nomemo_eval, List.take_of_length_le (by rw [List.length_mergeSort]; norm_num)]
    exact (List.mergeSort_perm _ _).mem_iff.mpr (by simp)
  · rw [MultiverseResult.all_cycles, c4scan_memo]
    simp only [List.foldr_cons, List.foldr_nil, List.append_nil]
    intro h
    rcases List.mem_singleton.mp h with heq
    have hpools := congrArg (fun c => c.pool_addresses) heq
    simp [c4cycle1, c4cycle2] at hpools

theorem dfs_exact_hops_subset (s : MultiverseScanner) (g : HopGraph) :
    ∀ (fuel : ℕ) (start current : String) (path pools dexes : List String)
      (w : EReal) (liq fees depth target : ℕ) (minp : ℝ) (memo : Memo),
    ∀ c ∈ (dfs_exact_hops s g fuel start current path pools dexes
        w liq fees depth target minp memo).1,
      c ∈ dfs_exact_hops_nomemo s g fuel start current path pools dexes
        w liq fees depth target minp := by
  intro fuel
  induction fuel with
  | zero =>
    intro start current path pools dexes w liq fees depth target minp memo c hc
    simp [dfs_exact_hops] at hc
  | succ fuel ih =>
    intro start current path pools dexes w liq fees depth target minp memo c hc
    rw [dfs_exact_hops] at hc
    rw [dfs_exact_hops_nomemo]
    by_cases hm : (match alookup (start, current, depth) memo with
       | some cached => cached < w
       | none => False)
    · rw [if_pos hm] at hc
      simp at hc
    · rw [if_neg hm] at hc
      simp only [] at hc
      refine foldl_rel
        (R := fun (st : List MultiverseCycle × Memo) (res : List MultiverseCycle) =>
          ∀ c ∈ st.1, c ∈ res)
        (Q := fun _ : PoolEdge => True)
        _ _ (fun _ _ => trivial) ?_ ([], ainsert (start, current, depth) w memo) []
        (fun c hc => absurd hc (List.not_mem_nil c)) c hc
      intro st res edge _ hrel c2 hc2
      simp only [] at hc2 ⊢
      by_cases h1 : edge.liquidity_usd < s.min_liquidity_usd
      · rw [if_pos h1] at hc2
        rw [if_pos h1]
        exact hrel _ hc2
      · rw [if_neg h1] at hc2
        rw [if_neg h1]
        by_cases h2 : edge.target_mint ∈ path.drop 1 ∧ edge.target_mint ≠ start
        · rw [if_pos h2] at hc2
          rw [if_pos h2]
          exact hrel _ hc2
        · rw [if_neg h2] at hc2
          rw [if_neg h2]
          by_cases h3 : edge.target_mint = start ∧ depth + 1 = target
          · rw [if_pos h3] at hc2
            rw [if_pos h3]
            by_cases h4 : minp * 100 ≤ profitPct (w + edge.weight)
            · rw [if_pos h4] at hc2
              rw [if_pos h4]
              rcases List.mem_append.mp hc2 with hold | hnew
              · exact List.mem_append.mpr (Or.inl (hrel _ hold))
              · exact List.mem_append.mpr (Or.inr hnew)
            · rw [if_neg h4] at hc2
              rw [if_neg h4]
              exact hrel _ hc2
          · rw [if_neg h3] at hc2
            rw [if_neg h3]
            by_cases h5 : depth < target - 1
            · rw [if_pos h5] at hc2
              rw [if_pos h5]
              by_cases h6 : (0 : EReal) < w + edge.weight +
                  (((-3/1000 : ℝ) * ((target - depth - 1 : ℕ) : ℝ) : ℝ) : EReal)
              · rw [if_pos h6] at hc2
                rw [if_pos h6]
                exact hrel _ hc2
              · rw [if_neg h6] at hc2
                rw [if_neg h6]
                rcases List.mem_append.mp hc2 with hold | hrec
                · exact List.mem_append.mpr (Or.inl (hrel _ hold))
                · exact List.mem_append.mpr (Or.inr
                    (ih start edge.target_mint _ _ _ _ _ _ _ target minp _ c2 hrec))
            · rw [if_neg h5] at hc2
              rw [if_neg h5]
              exact hrel _ hc2

/-- Claim C4 (amended): the memoization prune only ever loses results —
every cycle emitted by the memoized exact-hop DFS, from any state and any
starting cache, is also emitted by the otherwise identical search without
the memo check. The reverse containment is false. -/
theorem claim_C4_amended (s : MultiverseScanner) (g : HopGraph) (fuel : ℕ)
    (start current : String) (path pools dexes : List String) (w : EReal)
    (liq fees depth target : ℕ) (minp : ℝ) (memo : Memo) :
    ∀ c ∈ (dfs_exact_hops s g fuel start current path pools dexes
        w liq fees depth target minp memo).1,
      c ∈ dfs_exact_hops_nomemo s g fuel start current path pools dexes
        w liq fees depth target minp :=
  dfs_exact_hops_subset s g fuel start current path pools dexes
    w liq fees depth target minp memo

theorem c4dfs_eval :
    (dfs_exact_hops mvScanner22 c4graph 2 "S" "A" ["S", "A"] ["P1"] ["orca"]
      c4eP1.weight c4eP1.liquidity_usd c4eP1.fee_bps 1 2 (0.20 : ℝ) []).1 = [c4cycle1] := by
  simp only [dfs_exact_hops, c4out_A, List.foldl_cons, List.foldl_nil]
  simp [c4eP1, c4eP3, mv22_liq, alookup, ainsert, c4sum1, c4prof1, c4cycle1, min_self]

/-- Witness for the amended claim C4: the cycle kept by the memoized DFS is
also found by the memo-free DFS. -/
theorem claim_C4_witness :
    c4cycle1 ∈ dfs_exact_hops_nomemo mvScanner22 c4graph 2 "S" "A" ["S", "A"]
      ["P1"] ["orca"] c4eP1.weight c4eP1.liquidity_usd c4eP1.fee_bps 1 2 (0.20 : ℝ) :=
  claim_C4_amended mvScanner22 c4graph 2 "S" "A" ["S", "A"] ["P1"] ["orca"]
    c4eP1.weight c4eP1.liquidity_usd c4eP1.fee_bps 1 2 (0.20 : ℝ) [] c4cycle1
    (by rw [c4dfs_eval]; exact List.mem_singleton.mpr rfl)

/-! ## Claim C1: default thresholds versus the percent comparison -/

noncomputable def c1e1 : PoolEdge :=
  { source_mint := "S"
    target_mint := "A"
    pool_address := "P1"
    exchange_rate := 1
    weight := ((0 : ℝ) : EReal)
    fee_bps := 0
    liquidity_usd := 1000000
    last_update_slot := 0
    dex := "orca" }

noncomputable def c1e2 : PoolEdge :=
  { source_mint := "A"
    target_mint := "S"
    pool_address := "P2"
    exchange_rate := Real.exp (1/100)
    weight := ((-(1/100) : ℝ) : EReal)
    fee_bps := 0
    liquidity_usd := 1000000
    last_update_slot := 0
    dex := "orca" }

noncomputable def c1graph : HopGraph :=
  { edges := [("S", [c1e1]), ("A", [c1e2])]
    pool_index := [("P1", ("S", 0)), ("P2", ("A", 0))]
    nodes := ["S", "A"]
    edge_count := 2 }

theorem c1out_S : c1graph.get_outbound "S" = [c1e1] := by
  simp [HopGraph.get_outbound, c1graph, alookup]

theorem c1out_A : c1graph.get_outbound "A" = [c1e2] := by
  simp [HopGraph.get_outbound, c1graph, alookup]

theorem c1exp_upper : Real.exp (1/100) < 6/5 := by
  have h9 : (99/100 : ℝ) ≤ Real.exp (-(1/100)) := by
    have := Real.add_one_le_exp (-(1/100) : ℝ)
    linarith
  have hmul : Real.exp (-(1/100)) * Real.exp (1/100) = 1 := by
    rw [← Real.exp_add]
    norm_num
  nlinarith [Real.exp_pos ((1 : ℝ)/100)]

theorem c1noprof : ¬ ((0.20 : ℝ) * 100 ≤ profitPct (-(((100 : ℝ)⁻¹ : ℝ) : EReal))) := by
  rw [profitPct_neg_coe]
  intro h
  have h2 : Real.exp ((100 : ℝ)⁻¹) < 6/5 := by
    have h3 : ((100 : ℝ)⁻¹ : ℝ) = 1/100 := by norm_num
    rw [h3]
    exact c1exp_upper
  nlinarith

theorem c1level_eval :
    (find_cycles_at_level mvScanner22 c1graph "S" 2 (0.20 : ℝ) []).1 = [] := by
  rw [find_cycles_at_level]
  simp only [c1out_S, c1out_A, List.foldl_cons, List.foldl_nil, dfs_exact_hops]
  simp [c1e1, c1e2, mv22_liq, mv22_maxcyc, alookup, ainsert,
    c1out_S, c1out_A, c1noprof]

theorem c1scan :
    (mvScanner22.scan_multiverse c1graph "S").cycles_by_hops = [] := by
  rw [MultiverseScanner.scan_multiverse, if_neg (by simp [c1graph])]
  simp only [mv22_min_hops, mv22_max_hops]
  simp [List.range_succ, mv22_thresh, c1level_eval]

theorem c1meets :
    (0.20 : ℝ) ≤ profitPct (c1e1.weight + c1e2.weight) := by
  have hsum : c1e1.weight + c1e2.weight = -((1/100 : ℝ) : EReal) := by
    show ((0 : ℝ) : EReal) + ((-(1/100) : ℝ) : EReal) = _
    rw [show -((1/100 : ℝ) : EReal) = ((-(1/100) : ℝ) : EReal) by rw [← EReal.coe_neg],
      ← EReal.coe_add]
    norm_num
  rw [hsum, profitPct_neg_coe]
  have := Real.add_one_le_exp ((1 : ℝ)/100)
  nlinarith

/-- Claim C1 fails against the code: under the default configuration the
stored 2-hop threshold is 0.20 (the spec's 0.20 percent), the liquid
two-hop cycle S-A-S has profit_pct of at least 0.20, yet scan_multiverse
returns no cycles at all, because dfs_exact_hops compares profit_pct
against min_profit times 100, turning the stored 0.20 into a 20 percent
bar. -/
theorem claim_C1_threshold_units :
    alookup 2 mvScanner22.min_profit_thresholds = some (0.20 : ℝ) ∧
    (0.20 : ℝ) ≤ profitPct (c1e1.weight + c1e2.weight) ∧
    mvScanner22.min_liquidity_usd ≤ c1e1.liquidity_usd ∧
    mvScanner22.min_liquidity_usd ≤ c1e2.liquidity_usd ∧
    (mvScanner22.scan_multiverse c1graph "S").cycles_by_hops = [] := by
  refine ⟨?_, c1meets, ?_, ?_, c1scan⟩
  · simp [mvScanner22, MultiverseScanner.new, alookup]
  · rw [mv22_liq]
    simp [c1e1]
  · rw [mv22_liq]
    simp [c1e2]
